import Mathlib

/-!
Shallow embedding of `src/table.rs` (parity-db value table).

Bytes are modelled as `List Nat` (each element a byte value `< 256`; the
byte-producing helpers take `% 256` exactly where the Rust code's integer
casts truncate).  The backing file is a byte list; the WAL overlay
(`LogWriter` / `LogOverlays` in the Rust code) is an association list from
slot index to the staged used-prefix bytes, most recent first.  Fallible
operations return `Except TErr`; `TErr.assertFail` models a Rust
`assert!` panic and `TErr.ioErr` an I/O error (`read_exact_at` past the
end of the file).  Loops that follow on-disk links (`get`,
`clear_chain`, the grow loop of `enact_plan`) take explicit fuel, since
on corrupt input the Rust loops need not terminate; theorems supply
sufficient fuel.  Rust slice expressions `buf[a..b]` are modelled with
`List.drop`/`List.take`, which are total where the Rust slicing panics on
out-of-range indices; all theorems below only exercise in-range slices.
-/

/-- Error kind: an I/O failure or a fatal assertion. -/
inductive TErr where
  | ioErr
  | assertFail
deriving DecidableEq, Repr

/-- Byte strings. -/
abbrev Bytes := List Nat

/-- WAL overlay: staged entries keyed by slot index, most recent first.
The Rust overlay is additionally keyed by the table id; a single table is
modelled, so the table-id component is dropped. -/
abbrev Overlay := List (Nat × Bytes)

/-- Most recent staged bytes for a slot, as `LogOverlays::value` /
`LogWriter::value_overlay_at` return them. -/
def lookupOverlay (ov : Overlay) (i : Nat) : Option Bytes :=
  match ov with
  | [] => none
  | (j, v) :: rest => if j = i then some v else lookupOverlay rest i

/-- `KEY_LEN` from the source. -/
def KEY_LEN : Nat := 32

/-- `MAX_ENTRY_SIZE` from the source. -/
def MAX_ENTRY_SIZE : Nat := 65534

/-- `OFFSET_BITS` from the source. -/
def OFFSET_BITS : Nat := 32

/-- `OFFSET_MASK` from the source: `(1 << OFFSET_BITS) - 1`. -/
def OFFSET_MASK : Nat := (1 <<< OFFSET_BITS) - 1

/-- `TOMBSTONE` tag bytes from the source. -/
def TOMBSTONE : Bytes := [0xff, 0xff]

/-- `MULTIPART` tag bytes from the source. -/
def MULTIPART : Bytes := [0xff, 0xfe]

/-- `u16::to_le_bytes` of `n as u16`. -/
def le16 (n : Nat) : Bytes := [n % 256, n / 256 % 256]

/-- `u64::to_le_bytes` of `n as u64`. -/
def le64 (n : Nat) : Bytes :=
  [n % 256, n / 2 ^ 8 % 256, n / 2 ^ 16 % 256, n / 2 ^ 24 % 256,
   n / 2 ^ 32 % 256, n / 2 ^ 40 % 256, n / 2 ^ 48 % 256, n / 2 ^ 56 % 256]

/-- `uNN::from_le_bytes`: little-endian byte list to natural number. -/
def leToNat : Bytes → Nat
  | [] => 0
  | b :: rest => b + 256 * leToNat rest

/-- `TableId::new`: `((col as u16) << 8) | size_tier as u16`.  The Rust
inputs are 8-bit (`ColId` and `u8`), so theorems assume both `< 256`. -/
def TableId.new (col size_tier : Nat) : Nat := (col <<< 8) ||| size_tier

/-- `TableId::col`: `(self.0 >> 8) as ColId`. -/
def TableId.col (id : Nat) : Nat := id >>> 8

/-- `TableId::size_tier`: `(self.0 & 0xff) as u8`. -/
def TableId.size_tier (id : Nat) : Nat := id &&& 0xff

/-- `Address::new`: `((size_tier as u64) << OFFSET_BITS) | offset`.  The
offset is not masked, exactly as in the source. -/
def Address.new (offset size_tier : Nat) : Nat := (size_tier <<< OFFSET_BITS) ||| offset

/-- `Address::offset`: `self.0 & OFFSET_MASK`. -/
def Address.offset (a : Nat) : Nat := a &&& OFFSET_MASK

/-- `Address::size_tier`: `((self.0 >> OFFSET_BITS) & 0xff) as u8`. -/
def Address.size_tier (a : Nat) : Nat := (a >>> OFFSET_BITS) &&& 0xff

/-- `ValueTable` state.  `file` is the contents of the backing file;
`filled` and `last_removed` are the two atomic counters (relaxed atomics
under external serialization, modelled as plain fields); the `id` and the
file handle are irrelevant to the claims and omitted. -/
structure ValueTable where
  entry_size : Nat
  multipart : Bool
  capacity : Nat
  filled : Nat
  last_removed : Nat
  file : Bytes
deriving DecidableEq, Repr

/-- `set_len`: truncate or zero-extend a file to exactly `n` bytes. -/
def setLen (file : Bytes) (n : Nat) : Bytes :=
  file.take n ++ List.replicate (n - file.length) 0

/-- `write_all_at` (positional write): overwrites `buf.length` bytes at
`offset`, zero-filling any gap and extending the file when the write ends
past the current end of file. -/
def writeFileAt (file buf : Bytes) (offset : Nat) : Bytes :=
  setLen file offset ++ buf ++ file.drop (offset + buf.length)

namespace ValueTable

/-- `ValueTable::value_size`: `entry_size - KEY_LEN`. -/
def value_size (t : ValueTable) : Nat := t.entry_size - KEY_LEN

/-- `read_exact_at`: read `len` bytes at `offset`; fails past end of file. -/
def readAt (t : ValueTable) (len offset : Nat) : Except TErr Bytes :=
  if offset + len ≤ t.file.length then .ok ((t.file.drop offset).take len)
  else .error .ioErr

/-- `ValueTable::read_next_free`: the 8-byte link field of a tombstone,
overlay first, file second. -/
def readNextFree (t : ValueTable) (ov : Overlay) (index : Nat) : Except TErr Nat :=
  match lookupOverlay ov index with
  | some val => .ok (leToNat ((val.drop 2).take 8))
  | none =>
    match t.readAt 10 (index * t.entry_size) with
    | .error e => .error e
    | .ok buf => .ok (leToNat ((buf.drop 2).take 8))

/-- `ValueTable::read_next_part`: the link of a multipart entry, or `none`
when the entry is not multipart; overlay first, file second. -/
def readNextPart (t : ValueTable) (ov : Overlay) (index : Nat) : Except TErr (Option Nat) :=
  match lookupOverlay ov index with
  | some val =>
    if val.take 2 = MULTIPART then .ok (some (leToNat ((val.drop 2).take 8))) else .ok none
  | none =>
    match t.readAt 10 (index * t.entry_size) with
    | .error e => .error e
    | .ok buf =>
      if buf.take 2 = MULTIPART then .ok (some (leToNat ((buf.drop 2).take 8))) else .ok none

/-- `ValueTable::next_free`: pop the free-list head, else extend `filled`. -/
def nextFree (t : ValueTable) (ov : Overlay) : Except TErr Nat × ValueTable :=
  if t.last_removed ≠ 0 then
    match t.readNextFree ov t.last_removed with
    | .error e => (.error e, t)
    | .ok nextRemoved => (.ok t.last_removed, { t with last_removed := nextRemoved })
  else
    (.ok (t.filled + 1), { t with filled := t.filled + 1 })

/-- `ValueTable::clear_slot`: stage a tombstone whose link is the current
free-list head, then make `index` the new head. -/
def clearSlot (t : ValueTable) (ov : Overlay) (index : Nat) : ValueTable × Overlay :=
  ({ t with last_removed := index }, (index, TOMBSTONE ++ le64 t.last_removed) :: ov)

/-- `ValueTable::clear_chain`: tombstone every slot of a chain, following
`read_next_part` links. -/
def clearChain (t : ValueTable) (ov : Overlay) (index fuel : Nat) :
    Except TErr Unit × ValueTable × Overlay :=
  match fuel with
  | 0 => (.error .ioErr, t, ov)
  | fuel + 1 =>
    match t.readNextPart ov index with
    | .error e => (.error e, t, ov)
    | .ok (some next) =>
      let (t, ov) := t.clearSlot ov index
      clearChain t ov next fuel
    | .ok none =>
      let (t, ov) := t.clearSlot ov index
      (.ok (), t, ov)

/-- Loop body of `ValueTable::overwrite_chain`.  The loop state is
`(remainder, offset, start, index, follow)` exactly as in the source;
`cfuel` is the fuel handed to `clear_chain` when an old tail is freed. -/
def owLoop (key value : Bytes) (cfuel fuel : Nat) (t : ValueTable) (ov : Overlay)
    (remainder offset start index : Nat) (follow : Bool) :
    Except TErr Nat × ValueTable × Overlay :=
  match fuel with
  | 0 => (.error .ioErr, t, ov)
  | fuel + 1 =>
    let start := if start = 0 then index else start
    let rstep : Except TErr (Nat × Bool) :=
      if follow then
        match t.readNextPart ov index with
        | .error e => .error e
        | .ok (some next) => .ok (next, true)
        | .ok none => .ok (0, false)
      else .ok (0, false)
    match rstep with
    | .error e => (.error e, t, ov)
    | .ok (nexti, follow) =>
      if remainder > t.entry_size - 2 then
        match (if follow then (.ok nexti, t) else t.nextFree ov :
            Except TErr Nat × ValueTable) with
        | (.error e, t) => (.error e, t, ov)
        | (.ok nexti, t) =>
          let value_len := t.entry_size - 2 - 8
          let chunk :=
            if offset = 0 then key.drop 2 ++ (value.drop offset).take (value_len - 30)
            else (value.drop offset).take value_len
          let noff := if offset = 0 then offset + (value_len - 30) else offset + value_len
          owLoop key value cfuel fuel t ((index, MULTIPART ++ le64 nexti ++ chunk) :: ov)
            (remainder - value_len) noff start nexti follow
      else
        let chunk :=
          if offset = 0 then key.drop 2 ++ (value.drop offset).take (remainder - 30)
          else (value.drop offset).take remainder
        let ov := (index, le16 remainder ++ chunk) :: ov
        if nexti ≠ 0 then
          match t.clearChain ov nexti cfuel with
          | (.error e, t, ov) => (.error e, t, ov)
          | (.ok _, t, ov) => (.ok start, t, ov)
        else (.ok start, t, ov)

/-- `ValueTable::overwrite_chain`: assertion, initial allocation, loop. -/
def overwriteChain (t : ValueTable) (ov : Overlay) (key value : Bytes) (atPos : Option Nat)
    (fuel cfuel : Nat) : Except TErr Nat × ValueTable × Overlay :=
  if t.multipart = true ∨ value.length ≤ t.value_size then
    match atPos with
    | some index => owLoop key value cfuel fuel t ov (value.length + 30) 0 0 index true
    | none =>
      match t.nextFree ov with
      | (.error e, t) => (.error e, t, ov)
      | (.ok index, t) => owLoop key value cfuel fuel t ov (value.length + 30) 0 0 index false
  else (.error .assertFail, t, ov)

/-- `ValueTable::write_insert_plan`. -/
def writeInsertPlan (t : ValueTable) (ov : Overlay) (key value : Bytes) (fuel cfuel : Nat) :
    Except TErr Nat × ValueTable × Overlay :=
  t.overwriteChain ov key value none fuel cfuel

/-- `ValueTable::write_replace_plan`. -/
def writeReplacePlan (t : ValueTable) (ov : Overlay) (index : Nat) (key value : Bytes)
    (fuel cfuel : Nat) : Except TErr Unit × ValueTable × Overlay :=
  match t.overwriteChain ov key value (some index) fuel cfuel with
  | (.error e, t, ov) => (.error e, t, ov)
  | (.ok _, t, ov) => (.ok (), t, ov)

/-- `ValueTable::write_remove_plan`. -/
def writeRemovePlan (t : ValueTable) (ov : Overlay) (index fuel : Nat) :
    Except TErr Unit × ValueTable × Overlay :=
  if t.multipart then t.clearChain ov index fuel
  else
    let (t, ov) := t.clearSlot ov index
    (.ok (), t, ov)

/-- Loop body of `ValueTable::get`.  `part` counts the chain position. -/
def getLoop (t : ValueTable) (ov : Overlay) (key : Bytes) (fuel index part : Nat)
    (acc : Bytes) : Except TErr (Option Bytes) :=
  match fuel with
  | 0 => .error .ioErr
  | fuel + 1 =>
    let rbuf : Except TErr Bytes :=
      match lookupOverlay ov index with
      | some o => .ok o
      | none => t.readAt t.entry_size (index * t.entry_size)
    match rbuf with
    | .error e => .error e
    | .ok buf =>
      if buf.take 2 = TOMBSTONE then .ok none
      else
        let co := if buf.take 2 = MULTIPART then 10 else 2
        let cl := if buf.take 2 = MULTIPART then t.entry_size - 10 else leToNat (buf.take 2)
        let next := if buf.take 2 = MULTIPART then leToNat ((buf.drop 2).take 8) else 0
        if part = 0 then
          if key.drop 2 ≠ (buf.drop co).take 30 then .ok none
          else
            let acc := acc ++ (buf.drop (co + 30)).take (cl - 30)
            if next = 0 then .ok (some acc)
            else getLoop t ov key fuel next (part + 1) acc
        else
          let acc := acc ++ (buf.drop co).take cl
          if next = 0 then .ok (some acc)
          else getLoop t ov key fuel next (part + 1) acc

/-- `ValueTable::get`: read a whole chain, overlay before file. -/
def get (t : ValueTable) (ov : Overlay) (key : Bytes) (index fuel : Nat) :
    Except TErr (Option Bytes) :=
  t.getLoop ov key fuel index 0 []

/-- `ValueTable::grow`: extend capacity by `(256 * 1024) / entry_size`
entries (Rust integer division) and `set_len` the file accordingly. -/
def grow (t : ValueTable) : ValueTable :=
  let capacity := t.capacity + 256 * 1024 / t.entry_size
  { t with capacity := capacity, file := setLen t.file (capacity * t.entry_size) }

/-- The `while index > self.capacity { self.grow()?; }` loop heading
`ValueTable::enact_plan`. -/
def growLoop (fuel : Nat) (t : ValueTable) (index : Nat) : ValueTable :=
  match fuel with
  | 0 => t
  | fuel + 1 => if index > t.capacity then growLoop fuel t.grow index else t

/-- `LogReader::read`: consume `n` bytes from the WAL replay stream. -/
def logRead (stream : Bytes) (n : Nat) : Except TErr (Bytes × Bytes) :=
  if n ≤ stream.length then .ok (stream.take n, stream.drop n) else .error .ioErr

/-- `ValueTable::enact_plan`: grow to cover `index`, then write the
streamed entry at the slot offset. -/
def enactPlan (t : ValueTable) (index : Nat) (stream : Bytes) (gfuel : Nat) :
    Except TErr (ValueTable × Bytes) :=
  let t := growLoop gfuel t index
  match logRead stream 2 with
  | .error e => .error e
  | .ok (tag, stream) =>
    if tag = TOMBSTONE then
      match logRead stream 8 with
      | .error e => .error e
      | .ok (rest, stream) =>
        .ok ({ t with file := writeFileAt t.file (tag ++ rest) (index * t.entry_size) }, stream)
    else if tag = MULTIPART then
      match logRead stream (t.entry_size - 2) with
      | .error e => .error e
      | .ok (rest, stream) =>
        .ok ({ t with file := writeFileAt t.file (tag ++ rest) (index * t.entry_size) }, stream)
    else
      match logRead stream (leToNat tag) with
      | .error e => .error e
      | .ok (rest, stream) =>
        .ok ({ t with file := writeFileAt t.file (tag ++ rest) (index * t.entry_size) }, stream)

/-- `ValueTable::complete_plan`: write the 16-byte header. -/
def completePlan (t : ValueTable) : ValueTable :=
  { t with file := writeFileAt t.file (le64 t.last_removed ++ le64 t.filled) 0 }

/-- `ValueTable::open` on given current file contents (`[]` for a fresh
file).  `some s` selects single-slot mode with entry size `s`; `none`
selects multipart mode with entry size 4096.  The `entry_size` range
assertions and the preallocation of one entry follow the source. -/
def openTable (contents : Bytes) (entry_size : Option Nat) : Except TErr ValueTable :=
  let p : Bool × Nat :=
    match entry_size with
    | some s => (false, s)
    | none => (true, 4096)
  if 64 ≤ p.2 ∧ p.2 ≤ MAX_ENTRY_SIZE then
    let file := if contents.length = 0 then setLen contents p.2 else contents
    if 16 ≤ file.length then
      let last_removed := leToNat (file.take 8)
      let filled0 := leToNat ((file.drop 8).take 8)
      let filled := if filled0 = 0 then 1 else filled0
      .ok ⟨p.2, p.1, file.length / p.2, filled, last_removed, file⟩
    else .error .ioErr
  else .error .assertFail

end ValueTable

deriving instance DecidableEq for Except

/-- Iterated `next_free`: the indices produced by `n` successive
allocation calls (no staging happens in between, as in the free-list
reuse scenario of §8 property 5 of the spec). -/
def ValueTable.nextFreeN (t : ValueTable) (ov : Overlay) : Nat → Except TErr (List Nat) × ValueTable
  | 0 => (.ok [], t)
  | n + 1 =>
    match t.nextFree ov with
    | (.error e, t) => (.error e, t)
    | (.ok i, t) =>
      match t.nextFreeN ov n with
      | (.error e, t) => (.error e, t)
      | (.ok rest, t) => (.ok (i :: rest), t)

/-- The table state of spec scenario S1: a freshly opened table with
entry size 64 (the spec's scenario parameters), `filled = 1`,
`last_removed = 0`, one preallocated zeroed entry. -/
def s1Table : ValueTable := ⟨64, true, 1, 1, 0, List.replicate 64 0⟩

/-- S1 key `[0x01] * 32`. -/
def s1Key : Bytes := List.replicate 32 1

/-- S1 value `[0xaa] * 10`. -/
def s1Value : Bytes := List.replicate 10 0xaa

/-- A freshly opened single-slot table with the maximal entry size
65534. -/
def c6Table : ValueTable := ⟨65534, false, 1, 1, 0, List.replicate 65534 0⟩

/-- A value of length 65249, admissible in single-slot mode at entry size
65534 (65249 ≤ 65534 - 32), whose size word 65249 + 30 = 0xfeff collides
with the `MULTIPART` tag. -/
def c6Value : Bytes := List.replicate 65249 170

/-- A single-slot table with the maximal entry size 65534 and capacity 7,
used to exhibit the `grow` increment. -/
def c5Table : ValueTable := ⟨65534, false, 7, 1, 0, []⟩

/-- A freshly opened single-slot table with entry size 64: one entry in
the file, `capacity = 1`. -/
def c4Table : ValueTable := ⟨64, false, 1, 1, 0, List.replicate 64 0⟩

/-- A freshly opened multipart table: entry size 4096, one preallocated
zeroed entry, `filled = 1`, `last_removed = 0`. -/
def mpTable : ValueTable := ⟨4096, true, 1, 1, 0, List.replicate 4096 0⟩

/-- A multipart table whose overlay stages a three-slot chain
2 → 3 → 4 (two multipart entries and a final single entry), with
`filled = 4` and an empty free-list. -/
def c3Table : ValueTable := ⟨64, true, 1, 4, 0, List.replicate 64 0⟩

/-- The staged overlay for the chain 2 → 3 → 4 of `c3Table`. -/
def c3Overlay : Overlay :=
  [(2, MULTIPART ++ le64 3 ++ List.replicate 54 7),
   (3, MULTIPART ++ le64 4 ++ List.replicate 54 7),
   (4, le16 22 ++ List.replicate 22 9)]

/-- Free-list walk: `FreeList t ov head fs` states that starting from
`head` and following `read_next_free` links (overlay first, file second)
one visits exactly the nonzero slots `fs` and ends at the null
sentinel 0. -/
inductive FreeList (t : ValueTable) (ov : Overlay) : Nat → List Nat → Prop where
  | nil : FreeList t ov 0 []
  | cons {i j : Nat} {rest : List Nat} : i ≠ 0 →
      t.readNextFree ov i = .ok j → FreeList t ov j rest →
      FreeList t ov i (i :: rest)

/-- A well-formed allocator state: the free-list headed by `last_removed`
is a duplicate-free list of slots bounded by `filled`.  Reachable states
satisfy this (the spec's invariants 2-4). -/
structure WFState (t : ValueTable) (ov : Overlay) (fs : List Nat) : Prop where
  chain : FreeList t ov t.last_removed fs
  nodup : fs.Nodup
  bounded : ∀ i ∈ fs, i ≤ t.filled

/-- Chain of slots as `read_next_part` sees it: every slot but the last
reads as multipart with a link to the next, the last reads as
non-multipart. -/
inductive PartChain (t : ValueTable) (ov : Overlay) : Nat → List Nat → Prop where
  | last {i : Nat} : t.readNextPart ov i = .ok none → PartChain t ov i [i]
  | cons {i j : Nat} {rest : List Nat} : t.readNextPart ov i = .ok (some j) →
      PartChain t ov j rest → PartChain t ov i (i :: rest)

/-- The tail (parts 1 and beyond) of a staged chain, as visible through
the overlay `ov`: starting at slot `i` the staged entries spell out the
byte string `rest` over `n` parts.  `es` is the table's entry size. -/
inductive TailChain (es : Nat) (ov : Overlay) : Nat → Bytes → Nat → Prop where
  | single {i r : Nat} {chunk : Bytes} : i ≠ 0 →
      lookupOverlay ov i = some (le16 r ++ chunk) →
      chunk.length = r → r ≤ 65532 → r ≠ 65279 →
      TailChain es ov i chunk 1
  | multi {i next : Nat} {chunk rest : Bytes} {n : Nat} : i ≠ 0 →
      lookupOverlay ov i = some (MULTIPART ++ le64 next ++ chunk) →
      chunk.length = es - 10 → next ≠ 0 → next < 2 ^ 64 →
      TailChain es ov next rest n →
      TailChain es ov i (chunk ++ rest) (n + 1)

/-- A whole staged chain for `key`, as visible through the overlay: the
head entry carries the 30-byte key suffix before the payload. -/
inductive HeadChain (es : Nat) (ov : Overlay) (key : Bytes) : Nat → Bytes → Nat → Prop where
  | single {i r : Nat} {v : Bytes} : i ≠ 0 →
      lookupOverlay ov i = some (le16 r ++ (key.drop 2 ++ v)) →
      r = v.length + 30 → r ≤ 65532 → r ≠ 65279 →
      HeadChain es ov key i v 1
  | multi {i next : Nat} {chunk rest : Bytes} {n : Nat} : i ≠ 0 →
      lookupOverlay ov i = some (MULTIPART ++ le64 next ++ (key.drop 2 ++ chunk)) →
      30 + chunk.length = es - 10 → next ≠ 0 → next < 2 ^ 64 →
      TailChain es ov next rest n →
      HeadChain es ov key i (chunk ++ rest) (n + 1)


/-! ### Helper lemmas about the byte codec -/

theorem leToNat_le16 (n : Nat) (h : n < 2 ^ 16) : leToNat (le16 n) = n := by
  simp only [le16, leToNat]
  omega

theorem leToNat_le64 (n : Nat) (h : n < 2 ^ 64) : leToNat (le64 n) = n := by
  simp only [le64, leToNat]
  omega

theorem le16_length (n : Nat) : (le16 n).length = 2 := rfl

theorem le64_length (n : Nat) : (le64 n).length = 8 := rfl

theorem lookupOverlay_cons (j : Nat) (e : Bytes) (ov : Overlay) (i : Nat) :
    lookupOverlay ((j, e) :: ov) i = if j = i then some e else lookupOverlay ov i := rfl

theorem lor_shift_mod (a b k : Nat) (hb : b < 2 ^ k) : ((a <<< k) ||| b) % 2 ^ k = b := by
  apply Nat.eq_of_testBit_eq
  intro i
  rw [Nat.testBit_mod_two_pow, Nat.testBit_or, Nat.testBit_shiftLeft]
  by_cases h : i < k
  · have h2 : ¬ (i ≥ k) := by omega
    simp [h, h2]
  · have hbf : b.testBit i = false :=
      Nat.testBit_lt_two_pow (lt_of_lt_of_le hb (Nat.pow_le_pow_right (by omega) (by omega)))
    simp [h, hbf]

theorem lor_shift_shiftRight (a b k : Nat) (hb : b < 2 ^ k) : ((a <<< k) ||| b) >>> k = a := by
  apply Nat.eq_of_testBit_eq
  intro i
  rw [Nat.testBit_shiftRight, Nat.testBit_or, Nat.testBit_shiftLeft]
  have hbf : b.testBit (k + i) = false :=
    Nat.testBit_lt_two_pow (lt_of_lt_of_le hb (Nat.pow_le_pow_right (by omega) (by omega)))
  have h2 : k + i ≥ k := Nat.le_add_right k i
  simp [hbf, h2, Nat.add_sub_cancel_left]

/-! ### Simple characterizations of `next_free` -/

theorem nextFree_fresh (t : ValueTable) (ov : Overlay) (h : t.last_removed = 0) :
    t.nextFree ov = (.ok (t.filled + 1), { t with filled := t.filled + 1 }) := by
  simp [ValueTable.nextFree, h]

theorem nextFree_pop (t : ValueTable) (ov : Overlay) (j : Nat) (h : t.last_removed ≠ 0)
    (hr : t.readNextFree ov t.last_removed = .ok j) :
    t.nextFree ov = (.ok t.last_removed, { t with last_removed := j }) := by
  simp [ValueTable.nextFree, h, hr]

theorem owLoop_single_step (key value : Bytes) (cfuel fuel : Nat) (t : ValueTable)
    (ov : Overlay) (index : Nat)
    (hrem : value.length + 30 ≤ t.entry_size - 2) :
    ValueTable.owLoop key value cfuel (fuel + 1) t ov (value.length + 30) 0 0 index false =
      (.ok index, t, (index, le16 (value.length + 30) ++ key.drop 2 ++ value) :: ov) := by
  have hc : (value.length + 30 > t.entry_size - 2) = False := eq_false (by omega)
  simp only [ValueTable.owLoop, hc]
  simp [List.take_length]

theorem writeInsertPlan_single (t : ValueTable) (ov : Overlay) (key value : Bytes)
    (fuel cfuel : Nat) (i : Nat) (t1 : ValueTable)
    (hassert : t.multipart = true ∨ value.length ≤ t.value_size)
    (hrem : value.length + 30 ≤ t.entry_size - 2)
    (hnf : t.nextFree ov = (.ok i, t1))
    (hes : t1.entry_size = t.entry_size) :
    t.writeInsertPlan ov key value (fuel + 1) cfuel =
      (.ok i, t1, (i, le16 (value.length + 30) ++ key.drop 2 ++ value) :: ov) := by
  simp only [ValueTable.writeInsertPlan, ValueTable.overwriteChain]
  rw [if_pos hassert, hnf]
  exact owLoop_single_step key value cfuel fuel t1 ov i (by rw [hes]; exact hrem)

theorem nextFree_fields (t : ValueTable) (ov : Overlay) :
    (t.nextFree ov).2.entry_size = t.entry_size ∧ (t.nextFree ov).2.multipart = t.multipart ∧
    (t.nextFree ov).2.file = t.file ∧ (t.nextFree ov).2.capacity = t.capacity := by
  unfold ValueTable.nextFree
  split
  · split <;> simp
  · simp

/-! ### Claim theorems: C5, C10, C6 -/

/-- C5 counterexample: at entry size 65534 (within the claimed range
[64, 65534]) a `grow` call increases capacity by 4, while the ceiling of
256·1024 / 65534 is 5.  The claim that capacity grows by the ceiling is
false. -/
theorem grow_increment_not_ceiling :
    (ValueTable.grow c5Table).capacity - c5Table.capacity = 4 ∧
    (256 * 1024 + 65534 - 1) / 65534 = 5 ∧ (4 : Nat) ≠ 5 := by
  refine ⟨?_, by norm_num, by decide⟩
  show 7 + 256 * 1024 / 65534 - 7 = 4
  norm_num

/-- C5 (amended): each `grow` call increases capacity by exactly the
floor of 256·1024 / entry_size (Rust integer division truncates), for
every entry size in [64, 65534].  The increment equals the claimed
ceiling only when entry_size divides 256·1024. -/
theorem grow_increment_floor (t : ValueTable) (h1 : 64 ≤ t.entry_size)
    (h2 : t.entry_size ≤ 65534) :
    (ValueTable.grow t).capacity = t.capacity + 256 * 1024 / t.entry_size := rfl

theorem grow_increment_floor_witness :
    64 ≤ c5Table.entry_size ∧ c5Table.entry_size ≤ 65534 ∧
    (ValueTable.grow c5Table).capacity = c5Table.capacity + 256 * 1024 / c5Table.entry_size :=
  ⟨by decide, by decide, grow_increment_floor c5Table (by decide) (by decide)⟩

/-- C10: `TableId::new` packs an 8-bit column id and an 8-bit size tier
losslessly (recovered by `col` and `size_tier`), and `Address::new`
packs an 8-bit size tier and an offset below 2^32 losslessly (recovered
by `offset` and `size_tier`). -/
theorem id_and_address_roundtrip (col tier offset : Nat)
    (hc : col < 256) (ht : tier < 256) (ho : offset < 2 ^ 32) :
    TableId.col (TableId.new col tier) = col ∧
    TableId.size_tier (TableId.new col tier) = tier ∧
    Address.offset (Address.new offset tier) = offset ∧
    Address.size_tier (Address.new offset tier) = tier := by
  refine ⟨?_, ?_, ?_, ?_⟩
  · exact lor_shift_shiftRight col tier 8 (by omega)
  · show ((col <<< 8) ||| tier) &&& 0xff = tier
    have h8 : (0xff : Nat) = 2 ^ 8 - 1 := by norm_num
    rw [h8, Nat.and_pow_two_sub_one_eq_mod]
    exact lor_shift_mod col tier 8 (by omega)
  · show ((tier <<< 32) ||| offset) &&& OFFSET_MASK = offset
    have hm : OFFSET_MASK = 2 ^ 32 - 1 := by
      simp [OFFSET_MASK, OFFSET_BITS, Nat.shiftLeft_eq]
    rw [hm, Nat.and_pow_two_sub_one_eq_mod]
    exact lor_shift_mod tier offset 32 ho
  · show (((tier <<< 32) ||| offset) >>> 32) &&& 0xff = tier
    rw [lor_shift_shiftRight tier offset 32 ho]
    have h8 : (0xff : Nat) = 2 ^ 8 - 1 := by norm_num
    rw [h8, Nat.and_pow_two_sub_one_eq_mod, Nat.mod_eq_of_lt (by omega)]

theorem id_and_address_roundtrip_witness :
    TableId.col (TableId.new 3 5) = 3 ∧ TableId.size_tier (TableId.new 3 5) = 5 ∧
    Address.offset (Address.new 77 5) = 77 ∧ Address.size_tier (Address.new 77 5) = 5 :=
  id_and_address_roundtrip 3 5 77 (by decide) (by decide) (by norm_num)

/-- C6 (amended): a live single entry's size word, for any size in
[30, 0xfffe) other than 0xfeff, differs from both reserved tags, and its
little-endian decode (as performed by `get`) recovers the size.  The
exception 0xfeff is forced by the counterexample below: its little-endian
bytes are exactly the MULTIPART tag. -/
theorem size_word_tag_unambiguous (size : Nat) (payload : Bytes)
    (h1 : 30 ≤ size) (h2 : size < 0xfffe) (h3 : size ≠ 0xfeff) :
    (le16 size ++ payload).take 2 ≠ TOMBSTONE ∧
    (le16 size ++ payload).take 2 ≠ MULTIPART ∧
    leToNat ((le16 size ++ payload).take 2) = size := by
  have ht : (le16 size ++ payload).take 2 = le16 size := by
    simp [le16]
  rw [ht]
  refine ⟨?_, ?_, leToNat_le16 size (by omega)⟩
  · simp only [le16, TOMBSTONE, List.cons.injEq, and_true, ne_eq, not_and]
    omega
  · simp only [le16, MULTIPART, List.cons.injEq, and_true, ne_eq, not_and]
    omega

theorem size_word_tag_unambiguous_witness :
    (le16 40 ++ ([] : Bytes)).take 2 ≠ TOMBSTONE ∧
    (le16 40 ++ ([] : Bytes)).take 2 ≠ MULTIPART ∧
    leToNat ((le16 40 ++ ([] : Bytes)).take 2) = 40 :=
  size_word_tag_unambiguous 40 [] (by decide) (by decide) (by decide)

/-- C6 counterexample: `overwrite_chain` on a fresh single-slot table of
entry size 65534 with a value of length 65249 stages a live single entry
whose size word is 65279 = 0xfeff, which lies in the claimed range
[30, 0xfffe) yet whose first two bytes are exactly the MULTIPART tag, so
decoding does not classify the entry as live single. -/
theorem single_size_word_equals_multipart_tag :
    c6Table.writeInsertPlan [] s1Key c6Value 1 0 =
      (.ok 2, { c6Table with filled := 2 }, [(2, le16 65279 ++ s1Key.drop 2 ++ c6Value)]) ∧
    30 ≤ 65279 ∧ 65279 < 0xfffe ∧
    (le16 65279 ++ s1Key.drop 2 ++ c6Value).take 2 = MULTIPART := by
  have hlen : c6Value.length = 65249 := by
    unfold c6Value
    exact List.length_replicate 65249 170
  have h := writeInsertPlan_single c6Table [] s1Key c6Value 0 0 2 { c6Table with filled := 2 }
    (Or.inr (by rw [hlen]; norm_num [c6Table, ValueTable.value_size, KEY_LEN]))
    (by rw [hlen]; norm_num [c6Table])
    (nextFree_fresh c6Table [] rfl) rfl
  refine ⟨?_, by norm_num, by norm_num, by decide⟩
  rw [h, hlen]

/-! ### Claim theorems: C9, C2 -/

theorem openTable_filled_pos (contents : Bytes) (es : Option Nat) (t : ValueTable)
    (h : ValueTable.openTable contents es = .ok t) : 1 ≤ t.filled := by
  unfold ValueTable.openTable at h
  simp only [] at h
  repeat' split at h
  all_goals first
    | exact Except.noConfusion h
    | (subst h; dsimp only [] at *; omega)
    | (rw [Except.ok.injEq] at h; subst h; dsimp only [] at *; omega)

/-- C9: `open` establishes `filled ≥ 1`, and `next_free` returns an index
`i` with `0 < i ≤ filled` (filled taken after the call): either the
free-list head (popped, `last_removed` advanced to its link) or
`filled + 1` with `filled` incremented. -/
theorem allocation_never_null :
    (∀ contents es t, ValueTable.openTable contents es = .ok t → 1 ≤ t.filled) ∧
    (∀ (t : ValueTable) (ov : Overlay), t.last_removed ≤ t.filled →
      (t.last_removed ≠ 0 → ∃ j, t.readNextFree ov t.last_removed = .ok j) →
      ∃ i t2, t.nextFree ov = (.ok i, t2) ∧ 0 < i ∧ i ≤ t2.filled ∧
        ((i = t.last_removed ∧ t2.filled = t.filled ∧
            t.readNextFree ov t.last_removed = .ok t2.last_removed) ∨
          (i = t.filled + 1 ∧ t2.filled = t.filled + 1))) := by
  refine ⟨openTable_filled_pos, ?_⟩
  intro t ov hlr hread
  by_cases h : t.last_removed = 0
  · exact ⟨t.filled + 1, _, nextFree_fresh t ov h, by omega, by simp, Or.inr ⟨rfl, by simp⟩⟩
  · obtain ⟨j, hj⟩ := hread h
    refine ⟨t.last_removed, _, nextFree_pop t ov j h hj, by omega, by simpa using hlr,
      Or.inl ⟨rfl, by simp, by simpa using hj⟩⟩

theorem allocation_never_null_witness :
    (1 ≤ (⟨64, false, 1, 1, 0, List.replicate 64 0⟩ : ValueTable).filled) ∧
    (∃ i t2, ValueTable.nextFree s1Table [] = (.ok i, t2) ∧ 0 < i ∧ i ≤ t2.filled ∧
      ((i = s1Table.last_removed ∧ t2.filled = s1Table.filled ∧
          ValueTable.readNextFree s1Table [] s1Table.last_removed = .ok t2.last_removed) ∨
        (i = s1Table.filled + 1 ∧ t2.filled = s1Table.filled + 1))) :=
  ⟨allocation_never_null.1 [] (some 64) ⟨64, false, 1, 1, 0, List.replicate 64 0⟩ (by decide),
   allocation_never_null.2 s1Table [] (by decide) (fun h => absurd rfl h)⟩

/-- C2 counterexample: on the freshly opened S1 table
(`filled = 1`, `last_removed = 0`), inserting the S1 key and value
returns head index 2, not 1 as the claim states: `next_free` with an
empty free-list returns `filled + 1 = 2`. -/
theorem s1_insert_head_is_two :
    (s1Table.writeInsertPlan [] s1Key s1Value 2 0).1 = .ok 2 ∧
    ((Except.ok 2 : Except TErr Nat) ≠ .ok 1) := by
  refine ⟨by decide, by decide⟩

/-- C2 (amended): on the freshly opened S1 table, inserting
`k = [0x01]*32`, `v = [0xaa]*10` returns head index 2, leaves
`filled = 2` and `last_removed = 0`, stages a single live entry for slot
2, and `get(k, 2)` through the overlay returns `v`. -/
theorem s1_scenario :
    s1Table.writeInsertPlan [] s1Key s1Value 2 0 =
      (.ok 2, { s1Table with filled := 2 }, [(2, le16 40 ++ s1Key.drop 2 ++ s1Value)]) ∧
    (s1Table.writeInsertPlan [] s1Key s1Value 2 0).2.1.filled = 2 ∧
    (s1Table.writeInsertPlan [] s1Key s1Value 2 0).2.1.last_removed = 0 ∧
    ValueTable.get { s1Table with filled := 2 } [(2, le16 40 ++ s1Key.drop 2 ++ s1Value)]
      s1Key 2 1 = .ok (some s1Value) := by
  refine ⟨by decide, by decide, by decide, by decide⟩

/-! ### Claim C4: enact_plan off-by-one write past capacity -/

theorem growLoop_le (fuel : Nat) (t : ValueTable) (index : Nat) (h : index ≤ t.capacity) :
    ValueTable.growLoop fuel t index = t := by
  cases fuel <;> simp [ValueTable.growLoop, Nat.not_lt.mpr h]

theorem setLen_length_self (file : Bytes) : setLen file file.length = file := by
  simp [setLen]

theorem writeFileAt_append (file buf : Bytes) :
    writeFileAt file buf file.length = file ++ buf := by
  simp [writeFileAt, setLen_length_self, List.drop_eq_nil_of_le (by omega : file.length ≤ file.length + buf.length)]

/-- C4 (code bug): when `enact_plan` is invoked with `index` equal to the
current capacity, the grow loop `while index > capacity` does not run
(valid slots are `0 .. capacity - 1`), and the subsequent write lands
past the end of the file: for a tombstone record the file length becomes
`index * entry_size + 10`, which is not a multiple of `entry_size`,
contradicting the claimed invariant.  The loop condition should be
`index >= capacity`. -/
theorem enactPlan_breaks_alignment (t : ValueTable) (index : Nat) (stream : Bytes)
    (gfuel : Nat)
    (hcap : t.capacity = index)
    (hlen : t.file.length = t.capacity * t.entry_size)
    (hes : 64 ≤ t.entry_size)
    (htag : stream.take 2 = TOMBSTONE)
    (hstream : 10 ≤ stream.length) :
    ∃ t2 rest, t.enactPlan index stream gfuel = .ok (t2, rest) ∧
      t2.file.length = index * t.entry_size + 10 ∧
      ¬ (t.entry_size ∣ t2.file.length) ∧
      t.file.length < t2.file.length ∧ t2.capacity = t.capacity := by
  have hg : ValueTable.growLoop gfuel t index = t := growLoop_le gfuel t index (le_of_eq hcap.symm)
  have h2 : ValueTable.logRead stream 2 = .ok (stream.take 2, stream.drop 2) := by
    unfold ValueTable.logRead
    rw [if_pos (by omega)]
  have h8 : ValueTable.logRead (stream.drop 2) 8 =
      .ok ((stream.drop 2).take 8, (stream.drop 2).drop 8) := by
    unfold ValueTable.logRead
    rw [if_pos (by simp; omega)]
  have hoff : index * t.entry_size = t.file.length := by rw [hlen, hcap]
  have key : t.enactPlan index stream gfuel =
      .ok ({ t with file := t.file ++ (TOMBSTONE ++ (stream.drop 2).take 8) },
        (stream.drop 2).drop 8) := by
    unfold ValueTable.enactPlan
    rw [hg, h2]
    simp only [htag, if_pos, h8]
    rw [hoff, writeFileAt_append]
  have hbuf : (TOMBSTONE ++ (stream.drop 2).take 8).length = 10 := by
    simp only [List.length_append, TOMBSTONE, List.length_cons, List.length_nil,
      List.length_take, List.length_drop]
    omega
  refine ⟨_, _, key, ?_, ?_, ?_, rfl⟩
  · simp only [List.length_append, hbuf]
    omega
  · intro hdvd
    have hL : ({ t with file := t.file ++ (TOMBSTONE ++ (stream.drop 2).take 8)} :
        ValueTable).file.length = index * t.entry_size + 10 := by
      simp only [List.length_append, hbuf]
      omega
    rw [hL] at hdvd
    have h10 : t.entry_size ∣ 10 := by
      have hmul : t.entry_size ∣ index * t.entry_size := Dvd.intro_left index rfl
      exact (Nat.dvd_add_right hmul).mp hdvd
    have := Nat.le_of_dvd (by norm_num) h10
    omega
  · simp only [List.length_append, hbuf]
    omega


/-! ### Step lemmas for overwrite_chain and clear_chain, and the C7 frame -/

theorem owLoop_false_multi (key value : Bytes) (cfuel fuel : Nat) (t : ValueTable)
    (ov : Overlay) (remainder offset start index : Nat)
    (i : Nat) (t1 : ValueTable)
    (hrem : remainder > t.entry_size - 2)
    (hnf : t.nextFree ov = (.ok i, t1)) :
    ValueTable.owLoop key value cfuel (fuel + 1) t ov remainder offset start index false =
      ValueTable.owLoop key value cfuel fuel t1
        ((index, MULTIPART ++ le64 i ++
          (if offset = 0 then key.drop 2 ++ (value.drop offset).take (t1.entry_size - 2 - 8 - 30)
           else (value.drop offset).take (t1.entry_size - 2 - 8))) :: ov)
        (remainder - (t1.entry_size - 2 - 8))
        (if offset = 0 then offset + (t1.entry_size - 2 - 8 - 30)
         else offset + (t1.entry_size - 2 - 8))
        (if start = 0 then index else start) i false := by
  have hes : t1.entry_size = t.entry_size := by
    have h := nextFree_fields t ov
    rw [hnf] at h
    exact h.1
  have hc : (remainder > t.entry_size - 2) = True := eq_true hrem
  simp only [ValueTable.owLoop, Bool.false_eq_true, if_false, hes, hc, if_true, hnf]

theorem owLoop_false_error (key value : Bytes) (cfuel fuel : Nat) (t : ValueTable)
    (ov : Overlay) (remainder offset start index : Nat)
    (e : TErr) (t1 : ValueTable)
    (hrem : remainder > t.entry_size - 2)
    (hnf : t.nextFree ov = (.error e, t1)) :
    ValueTable.owLoop key value cfuel (fuel + 1) t ov remainder offset start index false =
      (.error e, t1, ov) := by
  have hc : (remainder > t.entry_size - 2) = True := eq_true hrem
  simp only [ValueTable.owLoop, Bool.false_eq_true, if_false, hc, if_true, hnf]

theorem owLoop_false_single (key value : Bytes) (cfuel fuel : Nat) (t : ValueTable)
    (ov : Overlay) (remainder offset start index : Nat)
    (hrem : ¬ (remainder > t.entry_size - 2)) :
    ValueTable.owLoop key value cfuel (fuel + 1) t ov remainder offset start index false =
      (.ok (if start = 0 then index else start), t,
        (index, le16 remainder ++
          (if offset = 0 then key.drop 2 ++ (value.drop offset).take (remainder - 30)
           else (value.drop offset).take remainder)) :: ov) := by
  have hc : (remainder > t.entry_size - 2) = False := eq_false hrem
  simp only [ValueTable.owLoop, Bool.false_eq_true, if_false, hc, ne_eq, not_true_eq_false,
    reduceIte]

theorem owLoop_true_error (key value : Bytes) (cfuel fuel : Nat) (t : ValueTable)
    (ov : Overlay) (remainder offset start index : Nat) (e : TErr)
    (hr : t.readNextPart ov index = .error e) :
    ValueTable.owLoop key value cfuel (fuel + 1) t ov remainder offset start index true =
      (.error e, t, ov) := by
  simp only [ValueTable.owLoop, if_true, hr]

theorem owLoop_true_none_multi (key value : Bytes) (cfuel fuel : Nat) (t : ValueTable)
    (ov : Overlay) (remainder offset start index : Nat)
    (i : Nat) (t1 : ValueTable)
    (hr : t.readNextPart ov index = .ok none)
    (hrem : remainder > t.entry_size - 2)
    (hnf : t.nextFree ov = (.ok i, t1)) :
    ValueTable.owLoop key value cfuel (fuel + 1) t ov remainder offset start index true =
      ValueTable.owLoop key value cfuel fuel t1
        ((index, MULTIPART ++ le64 i ++
          (if offset = 0 then key.drop 2 ++ (value.drop offset).take (t1.entry_size - 2 - 8 - 30)
           else (value.drop offset).take (t1.entry_size - 2 - 8))) :: ov)
        (remainder - (t1.entry_size - 2 - 8))
        (if offset = 0 then offset + (t1.entry_size - 2 - 8 - 30)
         else offset + (t1.entry_size - 2 - 8))
        (if start = 0 then index else start) i false := by
  have hes : t1.entry_size = t.entry_size := by
    have h := nextFree_fields t ov
    rw [hnf] at h
    exact h.1
  have hc : (remainder > t.entry_size - 2) = True := eq_true hrem
  simp only [ValueTable.owLoop, if_true, hr, Bool.false_eq_true, if_false, hes, hc, hnf]

theorem owLoop_true_none_single (key value : Bytes) (cfuel fuel : Nat) (t : ValueTable)
    (ov : Overlay) (remainder offset start index : Nat)
    (hr : t.readNextPart ov index = .ok none)
    (hrem : ¬ (remainder > t.entry_size - 2)) :
    ValueTable.owLoop key value cfuel (fuel + 1) t ov remainder offset start index true =
      (.ok (if start = 0 then index else start), t,
        (index, le16 remainder ++
          (if offset = 0 then key.drop 2 ++ (value.drop offset).take (remainder - 30)
           else (value.drop offset).take remainder)) :: ov) := by
  have hc : (remainder > t.entry_size - 2) = False := eq_false hrem
  simp only [ValueTable.owLoop, if_true, hr, Bool.false_eq_true, if_false, hc, ne_eq,
    not_true_eq_false, reduceIte]

theorem owLoop_true_some_multi (key value : Bytes) (cfuel fuel : Nat) (t : ValueTable)
    (ov : Overlay) (remainder offset start index next : Nat)
    (hr : t.readNextPart ov index = .ok (some next))
    (hrem : remainder > t.entry_size - 2) :
    ValueTable.owLoop key value cfuel (fuel + 1) t ov remainder offset start index true =
      ValueTable.owLoop key value cfuel fuel t
        ((index, MULTIPART ++ le64 next ++
          (if offset = 0 then key.drop 2 ++ (value.drop offset).take (t.entry_size - 2 - 8 - 30)
           else (value.drop offset).take (t.entry_size - 2 - 8))) :: ov)
        (remainder - (t.entry_size - 2 - 8))
        (if offset = 0 then offset + (t.entry_size - 2 - 8 - 30)
         else offset + (t.entry_size - 2 - 8))
        (if start = 0 then index else start) next true := by
  have hc : (remainder > t.entry_size - 2) = True := eq_true hrem
  simp only [ValueTable.owLoop, if_true, hr, hc]

theorem owLoop_true_some_single_zero (key value : Bytes) (cfuel fuel : Nat) (t : ValueTable)
    (ov : Overlay) (remainder offset start index : Nat)
    (hr : t.readNextPart ov index = .ok (some 0))
    (hrem : ¬ (remainder > t.entry_size - 2)) :
    ValueTable.owLoop key value cfuel (fuel + 1) t ov remainder offset start index true =
      (.ok (if start = 0 then index else start), t,
        (index, le16 remainder ++
          (if offset = 0 then key.drop 2 ++ (value.drop offset).take (remainder - 30)
           else (value.drop offset).take remainder)) :: ov) := by
  have hc : (remainder > t.entry_size - 2) = False := eq_false hrem
  simp only [ValueTable.owLoop, if_true, hr, hc, ne_eq, not_true_eq_false, reduceIte,
    if_false]

theorem owLoop_true_some_single_clear (key value : Bytes) (cfuel fuel : Nat) (t : ValueTable)
    (ov : Overlay) (remainder offset start index next : Nat)
    (hr : t.readNextPart ov index = .ok (some next))
    (hrem : ¬ (remainder > t.entry_size - 2))
    (hn : next ≠ 0)
    (rc : Except TErr Unit) (tc : ValueTable) (ovc : Overlay)
    (hcc : t.clearChain
      ((index, le16 remainder ++
        (if offset = 0 then key.drop 2 ++ (value.drop offset).take (remainder - 30)
         else (value.drop offset).take remainder)) :: ov) next cfuel = (rc, tc, ovc)) :
    ValueTable.owLoop key value cfuel (fuel + 1) t ov remainder offset start index true =
      ((match rc with
        | .error e => .error e
        | .ok _ => .ok (if start = 0 then index else start)), tc, ovc) := by
  have hc : (remainder > t.entry_size - 2) = False := eq_false hrem
  simp only [ValueTable.owLoop, if_true, hr, hc, if_false, hn, ne_eq, not_false_eq_true,
    reduceIte, hcc]
  cases rc <;> rfl

theorem owLoop_true_none_error (key value : Bytes) (cfuel fuel : Nat) (t : ValueTable)
    (ov : Overlay) (remainder offset start index : Nat)
    (e : TErr) (t1 : ValueTable)
    (hr : t.readNextPart ov index = .ok none)
    (hrem : remainder > t.entry_size - 2)
    (hnf : t.nextFree ov = (.error e, t1)) :
    ValueTable.owLoop key value cfuel (fuel + 1) t ov remainder offset start index true =
      (.error e, t1, ov) := by
  have hc : (remainder > t.entry_size - 2) = True := eq_true hrem
  simp only [ValueTable.owLoop, if_true, hr, Bool.false_eq_true, if_false, hc, hnf]

theorem append_cons_assoc {α : Type} (pre : List α) (x : α) (ov : List α) :
    pre ++ x :: ov = (pre ++ [x]) ++ ov := by simp

theorem clearChain_error (t : ValueTable) (ov : Overlay) (index fuel : Nat) (e : TErr)
    (h : t.readNextPart ov index = .error e) :
    t.clearChain ov index (fuel + 1) = (.error e, t, ov) := by
  simp only [ValueTable.clearChain, h]

theorem clearChain_last (t : ValueTable) (ov : Overlay) (index fuel : Nat)
    (h : t.readNextPart ov index = .ok none) :
    t.clearChain ov index (fuel + 1) =
      (.ok (), { t with last_removed := index },
        (index, TOMBSTONE ++ le64 t.last_removed) :: ov) := by
  simp only [ValueTable.clearChain, h, ValueTable.clearSlot]

theorem clearChain_step (t : ValueTable) (ov : Overlay) (index fuel next : Nat)
    (h : t.readNextPart ov index = .ok (some next)) :
    t.clearChain ov index (fuel + 1) =
      ValueTable.clearChain { t with last_removed := index }
        ((index, TOMBSTONE ++ le64 t.last_removed) :: ov) next fuel := by
  simp only [ValueTable.clearChain, h, ValueTable.clearSlot]

theorem clearChain_frame (fuel : Nat) : ∀ (t : ValueTable) (ov : Overlay) (index : Nat),
    (t.clearChain ov index fuel).2.1.file = t.file ∧
    ∃ pre, (t.clearChain ov index fuel).2.2 = pre ++ ov := by
  induction fuel with
  | zero =>
    intro t ov index
    exact ⟨rfl, [], rfl⟩
  | succ fuel ih =>
    intro t ov index
    cases h : t.readNextPart ov index with
    | error e =>
      rw [clearChain_error t ov index fuel e h]
      exact ⟨rfl, [], rfl⟩
    | ok o =>
      cases o with
      | none =>
        rw [clearChain_last t ov index fuel h]
        exact ⟨rfl, [(index, TOMBSTONE ++ le64 t.last_removed)], rfl⟩
      | some next =>
        rw [clearChain_step t ov index fuel next h]
        obtain ⟨hf, pre, hov⟩ := ih { t with last_removed := index }
          ((index, TOMBSTONE ++ le64 t.last_removed) :: ov) next
        exact ⟨hf, _, by rw [hov, append_cons_assoc]⟩

theorem owLoop_frame (fuel : Nat) : ∀ (key value : Bytes) (cfuel : Nat) (t : ValueTable)
    (ov : Overlay) (remainder offset start index : Nat) (follow : Bool),
    (ValueTable.owLoop key value cfuel fuel t ov remainder offset start index follow).2.1.file =
      t.file ∧
    ∃ pre, (ValueTable.owLoop key value cfuel fuel t ov remainder offset start index follow).2.2 =
      pre ++ ov := by
  induction fuel with
  | zero =>
    intro key value cfuel t ov remainder offset start index follow
    exact ⟨rfl, [], rfl⟩
  | succ fuel ih =>
    intro key value cfuel t ov remainder offset start index follow
    cases follow with
    | false =>
      by_cases hrem : remainder > t.entry_size - 2
      · cases hnf : t.nextFree ov with
        | mk r t1 =>
          have hfl := nextFree_fields t ov
          rw [hnf] at hfl
          cases r with
          | error e =>
            rw [owLoop_false_error key value cfuel fuel t ov remainder offset start index e t1
              hrem hnf]
            exact ⟨hfl.2.2.1, [], rfl⟩
          | ok i =>
            rw [owLoop_false_multi key value cfuel fuel t ov remainder offset start index i t1
              hrem hnf]
            obtain ⟨h1, pre, h2⟩ := ih key value cfuel t1 _ _ _ _ i false
            exact ⟨h1.trans hfl.2.2.1, _, by rw [h2, append_cons_assoc]⟩
      · rw [owLoop_false_single key value cfuel fuel t ov remainder offset start index hrem]
        exact ⟨rfl, [_], rfl⟩
    | true =>
      cases hr : t.readNextPart ov index with
      | error e =>
        rw [owLoop_true_error key value cfuel fuel t ov remainder offset start index e hr]
        exact ⟨rfl, [], rfl⟩
      | ok o =>
        cases o with
        | none =>
          by_cases hrem : remainder > t.entry_size - 2
          · cases hnf : t.nextFree ov with
            | mk r t1 =>
              have hfl := nextFree_fields t ov
              rw [hnf] at hfl
              cases r with
              | error e =>
                rw [owLoop_true_none_error key value cfuel fuel t ov remainder offset start index
                  e t1 hr hrem hnf]
                exact ⟨hfl.2.2.1, [], rfl⟩
              | ok i =>
                rw [owLoop_true_none_multi key value cfuel fuel t ov remainder offset start index
                  i t1 hr hrem hnf]
                obtain ⟨h1, pre, h2⟩ := ih key value cfuel t1 _ _ _ _ i false
                exact ⟨h1.trans hfl.2.2.1, _, by rw [h2, append_cons_assoc]⟩
          · rw [owLoop_true_none_single key value cfuel fuel t ov remainder offset start index hr
              hrem]
            exact ⟨rfl, [_], rfl⟩
        | some next =>
          by_cases hrem : remainder > t.entry_size - 2
          · rw [owLoop_true_some_multi key value cfuel fuel t ov remainder offset start index next
              hr hrem]
            obtain ⟨h1, pre, h2⟩ := ih key value cfuel t _ _ _ _ next true
            exact ⟨h1, _, by rw [h2, append_cons_assoc]⟩
          · by_cases hn : next = 0
            · subst hn
              rw [owLoop_true_some_single_zero key value cfuel fuel t ov remainder offset start
                index hr hrem]
              exact ⟨rfl, [_], rfl⟩
            · cases hcc : t.clearChain
                ((index, le16 remainder ++
                  (if offset = 0 then key.drop 2 ++ (value.drop offset).take (remainder - 30)
                   else (value.drop offset).take remainder)) :: ov) next cfuel with
              | mk rc p =>
                cases p with
                | mk tc ovc =>
                  rw [owLoop_true_some_single_clear key value cfuel fuel t ov remainder offset
                    start index next hr hrem hn rc tc ovc hcc]
                  have hcf := clearChain_frame cfuel t
                    ((index, le16 remainder ++
                      (if offset = 0 then key.drop 2 ++ (value.drop offset).take (remainder - 30)
                       else (value.drop offset).take remainder)) :: ov) next
                  rw [hcc] at hcf
                  obtain ⟨h1, pre, h2⟩ := hcf
                  exact ⟨h1, _, by rw [h2, append_cons_assoc]⟩

theorem overwriteChain_frame (t : ValueTable) (ov : Overlay) (key value : Bytes)
    (atPos : Option Nat) (fuel cfuel : Nat) :
    (t.overwriteChain ov key value atPos fuel cfuel).2.1.file = t.file ∧
    ∃ pre, (t.overwriteChain ov key value atPos fuel cfuel).2.2 = pre ++ ov := by
  unfold ValueTable.overwriteChain
  split
  · cases atPos with
    | some index => exact owLoop_frame fuel key value cfuel t ov _ _ _ _ true
    | none =>
      cases hnf : t.nextFree ov with
      | mk r t1 =>
        have hfl := nextFree_fields t ov
        rw [hnf] at hfl
        cases r with
        | error e => exact ⟨hfl.2.2.1, [], rfl⟩
        | ok i =>
          obtain ⟨h1, pre, h2⟩ := owLoop_frame fuel key value cfuel t1 ov _ _ _ i false
          exact ⟨h1.trans hfl.2.2.1, pre, h2⟩
  · exact ⟨rfl, [], rfl⟩

/-- C7: the three plan-staging operations only stage entries into the WAL
overlay (the overlay grows by a prefix of newly staged entries) and never
write to the backing file: the file bytes are identical before and after
every call, including calls that return an error. -/
theorem plan_staging_frame :
    (∀ (t : ValueTable) (ov : Overlay) (key value : Bytes) (fuel cfuel : Nat),
      (t.writeInsertPlan ov key value fuel cfuel).2.1.file = t.file ∧
      ∃ pre, (t.writeInsertPlan ov key value fuel cfuel).2.2 = pre ++ ov) ∧
    (∀ (t : ValueTable) (ov : Overlay) (index : Nat) (key value : Bytes) (fuel cfuel : Nat),
      (t.writeReplacePlan ov index key value fuel cfuel).2.1.file = t.file ∧
      ∃ pre, (t.writeReplacePlan ov index key value fuel cfuel).2.2 = pre ++ ov) ∧
    (∀ (t : ValueTable) (ov : Overlay) (index fuel : Nat),
      (t.writeRemovePlan ov index fuel).2.1.file = t.file ∧
      ∃ pre, (t.writeRemovePlan ov index fuel).2.2 = pre ++ ov) := by
  refine ⟨?_, ?_, ?_⟩
  · intro t ov key value fuel cfuel
    exact overwriteChain_frame t ov key value none fuel cfuel
  · intro t ov index key value fuel cfuel
    have h := overwriteChain_frame t ov key value (some index) fuel cfuel
    unfold ValueTable.writeReplacePlan
    cases hoc : t.overwriteChain ov key value (some index) fuel cfuel with
    | mk r p =>
      rw [hoc] at h
      cases p with
      | mk t2 ov2 =>
        cases r with
        | error e => simpa using h
        | ok u => simpa using h
  · intro t ov index fuel
    unfold ValueTable.writeRemovePlan
    split
    · exact clearChain_frame fuel t ov index
    · exact ⟨rfl, [(index, TOMBSTONE ++ le64 t.last_removed)], rfl⟩
theorem enactPlan_breaks_alignment_witness :
    ∃ t2 rest, ValueTable.enactPlan c4Table 1 (TOMBSTONE ++ le64 0) 0 = .ok (t2, rest) ∧
      t2.file.length = 1 * c4Table.entry_size + 10 ∧
      ¬ (c4Table.entry_size ∣ t2.file.length) ∧
      c4Table.file.length < t2.file.length ∧ t2.capacity = c4Table.capacity :=
  enactPlan_breaks_alignment c4Table 1 (TOMBSTONE ++ le64 0) 0 (by decide) (by decide)
    (by decide) (by decide) (by decide)

/-- C8: in single-slot mode (`multipart = false`), staging a value with
`|v| + 30 > entry_size - 2` fails the fatal assertion (the assertion
`|v| ≤ entry_size - 32` is the same bound for `entry_size ≥ 64`), before
any state is touched; under the precondition the assertion passes and
both insert and replace (of an existing single entry) stage exactly one
live single entry: chain length 1, no multipart entry, no extra
allocation. -/
theorem single_slot_mode (t : ValueTable) (ov : Overlay) (key value : Bytes)
    (hes : 64 ≤ t.entry_size) (hm : t.multipart = false) :
    (value.length + 30 > t.entry_size - 2 →
      ∀ atPos fuel cfuel, t.overwriteChain ov key value atPos fuel cfuel =
        (.error .assertFail, t, ov)) ∧
    (value.length + 30 ≤ t.entry_size - 2 →
      ∀ fuel cfuel i t1, t.nextFree ov = (.ok i, t1) →
        t.writeInsertPlan ov key value (fuel + 1) cfuel =
          (.ok i, t1, (i, le16 (value.length + 30) ++ key.drop 2 ++ value) :: ov)) ∧
    (value.length + 30 ≤ t.entry_size - 2 →
      ∀ fuel cfuel index, t.readNextPart ov index = .ok none →
        t.writeReplacePlan ov index key value (fuel + 1) cfuel =
          (.ok (), t, (index, le16 (value.length + 30) ++ key.drop 2 ++ value) :: ov)) := by
  refine ⟨?_, ?_, ?_⟩
  · intro hbig atPos fuel cfuel
    unfold ValueTable.overwriteChain
    rw [if_neg]
    rintro (h1 | h2)
    · rw [hm] at h1
      exact Bool.false_ne_true h1
    · unfold ValueTable.value_size KEY_LEN at h2
      omega
  · intro hrem fuel cfuel i t1 hnf
    have hfl := nextFree_fields t ov
    rw [hnf] at hfl
    exact writeInsertPlan_single t ov key value fuel cfuel i t1
      (Or.inr (by unfold ValueTable.value_size KEY_LEN; omega)) hrem hnf hfl.1
  · intro hrem fuel cfuel index hr
    unfold ValueTable.writeReplacePlan ValueTable.overwriteChain
    rw [if_pos (Or.inr (by unfold ValueTable.value_size KEY_LEN; omega))]
    dsimp only
    rw [owLoop_true_none_single key value cfuel fuel t ov (value.length + 30) 0 0 index hr
      (by omega)]
    simp [List.take_length]

theorem single_slot_mode_witness :
    ((10 : Nat) + 30 > c4Table.entry_size - 2 →
      ∀ atPos fuel cfuel, c4Table.overwriteChain [] s1Key s1Value atPos fuel cfuel =
        (.error .assertFail, c4Table, [])) ∧
    ((10 : Nat) + 30 ≤ c4Table.entry_size - 2 →
      ∀ fuel cfuel i t1, c4Table.nextFree [] = (.ok i, t1) →
        c4Table.writeInsertPlan [] s1Key s1Value (fuel + 1) cfuel =
          (.ok i, t1, (i, le16 (10 + 30) ++ s1Key.drop 2 ++ s1Value) :: [])) ∧
    ((10 : Nat) + 30 ≤ c4Table.entry_size - 2 →
      ∀ fuel cfuel index, c4Table.readNextPart [] index = .ok none →
        c4Table.writeReplacePlan [] index s1Key s1Value (fuel + 1) cfuel =
          (.ok (), c4Table, (index, le16 (10 + 30) ++ s1Key.drop 2 ++ s1Value) :: [])) := by
  have h := single_slot_mode c4Table [] s1Key s1Value (by decide) (by decide)
  have hv : s1Value.length = 10 := by decide
  rw [hv] at h
  exact h
/-! ### Congruence and shadowing lemmas for overlay reads -/

theorem readNextFree_congr (t t2 : ValueTable) (ov : Overlay) (i : Nat)
    (hf : t2.file = t.file) (he : t2.entry_size = t.entry_size) :
    t2.readNextFree ov i = t.readNextFree ov i := by
  unfold ValueTable.readNextFree ValueTable.readAt
  rw [hf, he]

theorem readNextPart_congr (t t2 : ValueTable) (ov : Overlay) (i : Nat)
    (hf : t2.file = t.file) (he : t2.entry_size = t.entry_size) :
    t2.readNextPart ov i = t.readNextPart ov i := by
  unfold ValueTable.readNextPart ValueTable.readAt
  rw [hf, he]

theorem readNextFree_shadow (t : ValueTable) (ov : Overlay) (i j : Nat) (e : Bytes)
    (hne : j ≠ i) : t.readNextFree ((j, e) :: ov) i = t.readNextFree ov i := by
  unfold ValueTable.readNextFree
  rw [lookupOverlay_cons, if_neg hne]

theorem readNextPart_shadow (t : ValueTable) (ov : Overlay) (i j : Nat) (e : Bytes)
    (hne : j ≠ i) : t.readNextPart ((j, e) :: ov) i = t.readNextPart ov i := by
  unfold ValueTable.readNextPart
  rw [lookupOverlay_cons, if_neg hne]

theorem FreeList_congr {t t2 : ValueTable} {ov : Overlay} {h : Nat} {fs : List Nat}
    (hf : t2.file = t.file) (he : t2.entry_size = t.entry_size)
    (H : FreeList t ov h fs) : FreeList t2 ov h fs := by
  induction H with
  | nil => exact .nil
  | cons h0 hr _ ih =>
    exact .cons h0 ((readNextFree_congr t t2 ov _ hf he).trans hr) ih

theorem FreeList_shadow {t : ValueTable} {ov : Overlay} {h : Nat} {fs : List Nat}
    (j : Nat) (e : Bytes) (hj : ∀ x ∈ fs, j ≠ x)
    (H : FreeList t ov h fs) : FreeList t ((j, e) :: ov) h fs := by
  induction H with
  | nil => exact .nil
  | @cons i k rest h0 hr _ ih =>
    refine .cons h0 ?_ (ih (fun x hx => hj x (List.mem_cons_of_mem i hx)))
    rw [readNextFree_shadow t ov i j e (hj i (List.mem_cons_self i rest))]
    exact hr

theorem PartChain_congr {t t2 : ValueTable} {ov : Overlay} {h : Nat} {ss : List Nat}
    (hf : t2.file = t.file) (he : t2.entry_size = t.entry_size)
    (H : PartChain t ov h ss) : PartChain t2 ov h ss := by
  induction H with
  | last hr => exact .last ((readNextPart_congr t t2 ov _ hf he).trans hr)
  | cons hr _ ih => exact .cons ((readNextPart_congr t t2 ov _ hf he).trans hr) ih

theorem PartChain_shadow {t : ValueTable} {ov : Overlay} {h : Nat} {ss : List Nat}
    (j : Nat) (e : Bytes) (hj : ∀ x ∈ ss, j ≠ x)
    (H : PartChain t ov h ss) : PartChain t ((j, e) :: ov) h ss := by
  induction H with
  | @last i hr =>
    refine .last ?_
    rw [readNextPart_shadow t ov i j e (hj i (List.mem_cons_self i []))]
    exact hr
  | @cons i k rest hr _ ih =>
    refine .cons ?_ (ih (fun x hx => hj x (List.mem_cons_of_mem i hx)))
    rw [readNextPart_shadow t ov i j e (hj i (List.mem_cons_self i rest))]
    exact hr

theorem tomb_link (x : Nat) : ((TOMBSTONE ++ le64 x).drop 2).take 8 = le64 x := rfl

theorem FreeList_head_lt {t : ValueTable} {ov : Overlay} {h : Nat} {fs : List Nat}
    (H : FreeList t ov h fs) (hb : ∀ i ∈ fs, i < 2 ^ 64) : h < 2 ^ 64 := by
  cases H with
  | nil => norm_num
  | cons h0 hr hrest => exact hb _ (List.mem_cons_self _ _)

theorem clearChain_spec : ∀ (ss : List Nat) (fuel : Nat) (t : ValueTable) (ov : Overlay)
    (index : Nat) (fs0 : List Nat),
    PartChain t ov index ss →
    FreeList t ov t.last_removed fs0 →
    (ss ++ fs0).Nodup → 0 ∉ ss →
    (∀ i ∈ ss, i < 2 ^ 64) → (∀ i ∈ fs0, i < 2 ^ 64) →
    ss.length ≤ fuel →
    ∃ t2 ov2, t.clearChain ov index fuel = (.ok (), t2, ov2) ∧
      t2.filled = t.filled ∧ t2.file = t.file ∧ t2.entry_size = t.entry_size ∧
      t2.multipart = t.multipart ∧ t2.capacity = t.capacity ∧
      FreeList t2 ov2 t2.last_removed (ss.reverse ++ fs0) ∧
      (∀ j, j ∉ ss → lookupOverlay ov2 j = lookupOverlay ov j) := by
  intro ss
  induction ss with
  | nil =>
    intro fuel t ov index fs0 hpc
    cases hpc
  | cons i rest ih =>
    intro fuel t ov index fs0 hpc hfl hnd h0 hss64 hfs64 hfuel
    have hlen : rest.length + 1 ≤ fuel := by simpa using hfuel
    obtain ⟨f, rfl⟩ : ∃ f, fuel = f + 1 := ⟨fuel - 1, by omega⟩
    have hi0 : i ≠ 0 := fun h => h0 (h ▸ List.mem_cons_self i rest)
    have hi64 : i < 2 ^ 64 := hss64 i (List.mem_cons_self i rest)
    have hlr64 : t.last_removed < 2 ^ 64 := FreeList_head_lt hfl hfs64
    -- the tombstone staged for slot i
    have hinotfs : ∀ x ∈ fs0, i ≠ x := by
      intro x hx he
      subst he
      have := (List.nodup_cons.mp hnd).1
      exact this (List.mem_append_right rest hx)
    -- the new state after clearing slot i
    have hfl1 : FreeList { t with last_removed := i }
        ((i, TOMBSTONE ++ le64 t.last_removed) :: ov) i (i :: fs0) := by
      refine FreeList.cons (j := t.last_removed) hi0 ?_ ?_
      · unfold ValueTable.readNextFree
        rw [lookupOverlay_cons, if_pos rfl]
        dsimp only
        rw [tomb_link, leToNat_le64 t.last_removed hlr64]
      · refine FreeList_shadow i _ hinotfs ?_
        exact FreeList_congr (t := t) rfl rfl hfl
    cases hpc with
    | last hr =>
      -- rest = [], chain ends here
      rw [clearChain_last t ov i f hr]
      refine ⟨_, _, rfl, rfl, rfl, rfl, rfl, rfl, ?_, ?_⟩
      · simpa using hfl1
      · intro j hj
        rw [lookupOverlay_cons, if_neg (fun he => hj (List.mem_singleton.mpr he.symm))]
    | @cons _ k _ hr hrest =>
      rw [clearChain_step t ov i f k hr]
      -- transport the remaining chain to the new state and overlay
      have hrestnb : ∀ x ∈ rest, i ≠ x := by
        intro x hx he
        subst he
        exact (List.nodup_cons.mp hnd).1 (List.mem_append_left fs0 hx)
      have hpc1 : PartChain { t with last_removed := i }
          ((i, TOMBSTONE ++ le64 t.last_removed) :: ov) k rest :=
        PartChain_shadow i _ hrestnb (PartChain_congr (t := t) rfl rfl hrest)
      have hnd1 : (rest ++ i :: fs0).Nodup := by
        have h2 : (i :: (rest ++ fs0)).Nodup := hnd
        exact (List.Perm.nodup_iff List.perm_middle).mpr h2
      have h01 : 0 ∉ rest := fun h => h0 (List.mem_cons_of_mem i h)
      obtain ⟨t2, ov2, hcc, hfill, hfile, hes, hmp, hcap, hfl2, hpres⟩ :=
        ih f { t with last_removed := i } ((i, TOMBSTONE ++ le64 t.last_removed) :: ov) k
          (i :: fs0) hpc1 hfl1 hnd1 h01
          (fun x hx => hss64 x (List.mem_cons_of_mem i hx))
          (fun x hx => by
            rcases List.mem_cons.mp hx with he | hx2
            · exact he ▸ hi64
            · exact hfs64 x hx2)
          (by omega)
      refine ⟨t2, ov2, hcc, hfill, hfile, hes, hmp, hcap, ?_, ?_⟩
      · have : rest.reverse ++ i :: fs0 = (i :: rest).reverse ++ fs0 := by
          simp
        rw [← this]
        exact hfl2
      · intro j hj
        have hjr : j ∉ rest := fun h => hj (List.mem_cons_of_mem i h)
        rw [hpres j hjr, lookupOverlay_cons,
          if_neg (fun he => hj (List.mem_cons.mpr (Or.inl he.symm)))]

theorem nextFreeN_pops : ∀ (l1 l2 : List Nat) (t : ValueTable) (ov : Overlay),
    FreeList t ov t.last_removed (l1 ++ l2) →
    ∃ t2, t.nextFreeN ov l1.length = (.ok l1, t2) ∧
      t2.filled = t.filled ∧ t2.file = t.file ∧ t2.entry_size = t.entry_size ∧
      t2.multipart = t.multipart ∧ t2.capacity = t.capacity ∧
      FreeList t2 ov t2.last_removed l2 := by
  intro l1
  induction l1 with
  | nil =>
    intro l2 t ov hfl
    exact ⟨t, rfl, rfl, rfl, rfl, rfl, rfl, hfl⟩
  | cons i l1 ih =>
    intro l2 t ov hfl
    generalize hh : t.last_removed = h at hfl
    cases hfl with
    | @cons _ j _ h0 hr hrest =>
      have hpop : t.nextFree ov = (.ok i, { t with last_removed := j }) := by
        rw [← hh]
        exact nextFree_pop t ov j (by rw [hh]; exact h0) (by rw [hh]; exact hr)
      have hrest2 : FreeList { t with last_removed := j } ov j (l1 ++ l2) :=
        FreeList_congr (t := t) rfl rfl hrest
      obtain ⟨t2, hN, hfill, hfile, hes, hmp, hcap, hfl2⟩ :=
        ih l2 { t with last_removed := j } ov hrest2
      refine ⟨t2, ?_, hfill, hfile, hes, hmp, hcap, hfl2⟩
      show ValueTable.nextFreeN t ov (l1.length + 1) = (.ok (i :: l1), t2)
      unfold ValueTable.nextFreeN
      rw [hpop]
      dsimp only
      rw [hN]

theorem FreeList_nil_lr {t : ValueTable} {ov : Overlay} {h : Nat}
    (H : FreeList t ov h []) : h = 0 := by
  cases H
  rfl

/-- C3: the free-list is LIFO.  After `write_remove_plan` tombstones a
chain of slots `ss` (tombstoned in chain order), successive `next_free`
calls return exactly `ss.reverse` — most recently freed first — followed
by the previously free slots `fs0`, and only once the free-list is
exhausted (`last_removed = 0`) does `next_free` allocate `filled + 1`,
incrementing `filled`. -/
theorem free_list_lifo (t : ValueTable) (ov : Overlay) (ss fs0 : List Nat) (index : Nat)
    (fuel : Nat)
    (hmp : t.multipart = true)
    (hchain : PartChain t ov index ss)
    (hfl : FreeList t ov t.last_removed fs0)
    (hnd : (ss ++ fs0).Nodup) (h0 : 0 ∉ ss)
    (hss64 : ∀ i ∈ ss, i < 2 ^ 64) (hfs64 : ∀ i ∈ fs0, i < 2 ^ 64)
    (hfuel : ss.length ≤ fuel) :
    ∃ t2 ov2 t3, t.writeRemovePlan ov index fuel = (.ok (), t2, ov2) ∧
      t2.filled = t.filled ∧
      t2.nextFreeN ov2 (ss.length + fs0.length) = (.ok (ss.reverse ++ fs0), t3) ∧
      t3.last_removed = 0 ∧ t3.filled = t.filled ∧
      t3.nextFree ov2 = (.ok (t.filled + 1), { t3 with filled := t.filled + 1 }) := by
  obtain ⟨t2, ov2, hcc, hfill, hfile, hes, hmp2, hcap, hfl2, hpres⟩ :=
    clearChain_spec ss fuel t ov index fs0 hchain hfl hnd h0 hss64 hfs64 hfuel
  have hrm : t.writeRemovePlan ov index fuel = (.ok (), t2, ov2) := by
    unfold ValueTable.writeRemovePlan
    rw [if_pos hmp, hcc]
  obtain ⟨t3, hN, hfill3, hfile3, hes3, hmp3, hcap3, hfl3⟩ :=
    nextFreeN_pops (ss.reverse ++ fs0) [] t2 ov2 (by simpa using hfl2)
  have hlr3 : t3.last_removed = 0 := FreeList_nil_lr hfl3
  have hlen : (ss.reverse ++ fs0).length = ss.length + fs0.length := by simp
  refine ⟨t2, ov2, t3, hrm, hfill, ?_, hlr3, by rw [hfill3, hfill], ?_⟩
  · rw [← hlen]
    exact hN
  · have := nextFree_fresh t3 ov2 hlr3
    rw [this, hfill3, hfill]

/-! ### Decoding lemmas for `get` -/

theorem single_take2 (r : Nat) (chunk : Bytes) : (le16 r ++ chunk).take 2 = le16 r := rfl

theorem single_drop2 (r : Nat) (chunk : Bytes) : (le16 r ++ chunk).drop 2 = chunk := rfl

theorem multi_take2 (n : Nat) (chunk : Bytes) :
    (MULTIPART ++ le64 n ++ chunk).take 2 = MULTIPART := rfl

theorem multi_link (n : Nat) (chunk : Bytes) :
    ((MULTIPART ++ le64 n ++ chunk).drop 2).take 8 = le64 n := rfl

theorem multi_drop10 (n : Nat) (chunk : Bytes) :
    (MULTIPART ++ le64 n ++ chunk).drop 10 = chunk := rfl

theorem le16_ne_tomb (r : Nat) (h : r ≤ 65532) : le16 r ≠ TOMBSTONE := by
  simp only [le16, TOMBSTONE, ne_eq, List.cons.injEq, and_true, not_and]
  omega

theorem le16_ne_multi (r : Nat) (h : r ≤ 65532) (h2 : r ≠ 65279) : le16 r ≠ MULTIPART := by
  simp only [le16, MULTIPART, ne_eq, List.cons.injEq, and_true, not_and]
  omega

theorem getLoop_tail_single (t : ValueTable) (ov : Overlay) (key : Bytes)
    (fuel index part : Nat) (acc chunk : Bytes) (r : Nat)
    (hl : lookupOverlay ov index = some (le16 r ++ chunk))
    (hlen : chunk.length = r) (hr1 : r ≤ 65532) (hr2 : r ≠ 65279) (hp : part ≠ 0) :
    t.getLoop ov key (fuel + 1) index part acc = .ok (some (acc ++ chunk)) := by
  have ht : (le16 r ++ chunk).take 2 ≠ TOMBSTONE := by
    rw [single_take2]
    exact le16_ne_tomb r hr1
  have hm : (le16 r ++ chunk).take 2 ≠ MULTIPART := by
    rw [single_take2]
    exact le16_ne_multi r hr1 hr2
  have hcl : leToNat ((le16 r ++ chunk).take 2) = r := by
    rw [single_take2]
    exact leToNat_le16 r (by omega)
  have htake : chunk.take r = chunk := by
    rw [← hlen]
    exact List.take_length chunk
  simp only [ValueTable.getLoop, hl, ht, hm, hcl, if_neg, if_false, hp, single_drop2]
  simp [htake]

theorem getLoop_tail_multi (t : ValueTable) (ov : Overlay) (key : Bytes)
    (fuel index part next : Nat) (acc chunk : Bytes)
    (hl : lookupOverlay ov index = some (MULTIPART ++ le64 next ++ chunk))
    (hcl : chunk.length = t.entry_size - 10)
    (hn64 : next < 2 ^ 64) (hn0 : next ≠ 0) (hp : part ≠ 0) :
    t.getLoop ov key (fuel + 1) index part acc =
      t.getLoop ov key fuel next (part + 1) (acc ++ chunk) := by
  have ht : (MULTIPART ++ le64 next ++ chunk).take 2 ≠ TOMBSTONE := by
    rw [multi_take2]
    decide
  have hmeq : (MULTIPART ++ le64 next ++ chunk).take 2 = MULTIPART := multi_take2 next chunk
  have hlink : leToNat (((MULTIPART ++ le64 next ++ chunk).drop 2).take 8) = next := by
    rw [multi_link]
    exact leToNat_le64 next hn64
  have htake : chunk.take (t.entry_size - 10) = chunk := by
    rw [← hcl]
    exact List.take_length chunk
  have hdrop : (le64 next ++ chunk).drop 8 = chunk := List.drop_left' (le64_length next)
  simp only [ValueTable.getLoop, hl, ht, hmeq, hlink, multi_drop10, if_neg, if_false, hp]
  simp [htake, hdrop, hn0, MULTIPART, TOMBSTONE]

theorem getLoop_head_single (t : ValueTable) (ov : Overlay) (key : Bytes)
    (fuel index : Nat) (acc v : Bytes) (r : Nat)
    (hl : lookupOverlay ov index = some (le16 r ++ (key.drop 2 ++ v)))
    (hkey : key.length = 32)
    (hr : r = v.length + 30) (hr1 : r ≤ 65532) (hr2 : r ≠ 65279) :
    t.getLoop ov key (fuel + 1) index 0 acc = .ok (some (acc ++ v)) := by
  have hkl : (key.drop 2).length = 30 := by
    rw [List.length_drop, hkey]
  have ht : (le16 r ++ (key.drop 2 ++ v)).take 2 ≠ TOMBSTONE := by
    rw [single_take2]
    exact le16_ne_tomb r hr1
  have hm : (le16 r ++ (key.drop 2 ++ v)).take 2 ≠ MULTIPART := by
    rw [single_take2]
    exact le16_ne_multi r hr1 hr2
  have hcl : leToNat ((le16 r ++ (key.drop 2 ++ v)).take 2) = r := by
    rw [single_take2]
    exact leToNat_le16 r (by omega)
  have hkeyeq : ((le16 r ++ (key.drop 2 ++ v)).drop 2).take 30 = key.drop 2 := by
    rw [single_drop2]
    exact List.take_left' hkl
  have hbody : ((le16 r ++ (key.drop 2 ++ v)).drop (2 + 30)).take (r - 30) = v := by
    have h1 : (le16 r ++ (key.drop 2 ++ v)) = (le16 r ++ key.drop 2) ++ v := by
      rw [List.append_assoc]
    rw [h1, List.drop_left' (by simp [le16_length, hkl])]
    have : r - 30 = v.length := by omega
    rw [this]
    exact List.take_length v
  simp only [ValueTable.getLoop, hl, ht, hm, hcl, hkeyeq, if_neg, if_false]
  simp [hbody]

theorem getLoop_head_multi (t : ValueTable) (ov : Overlay) (key : Bytes)
    (fuel index next : Nat) (acc chunk : Bytes)
    (hl : lookupOverlay ov index = some (MULTIPART ++ le64 next ++ (key.drop 2 ++ chunk)))
    (hkey : key.length = 32)
    (hcl : 30 + chunk.length = t.entry_size - 10)
    (hn64 : next < 2 ^ 64) (hn0 : next ≠ 0) :
    t.getLoop ov key (fuel + 1) index 0 acc =
      t.getLoop ov key fuel next 1 (acc ++ chunk) := by
  have hkl : (key.drop 2).length = 30 := by
    rw [List.length_drop, hkey]
  have ht : (MULTIPART ++ le64 next ++ (key.drop 2 ++ chunk)).take 2 ≠ TOMBSTONE := by
    rw [multi_take2]
    decide
  have hmeq : (MULTIPART ++ le64 next ++ (key.drop 2 ++ chunk)).take 2 = MULTIPART :=
    multi_take2 next (key.drop 2 ++ chunk)
  have hlink : leToNat (((MULTIPART ++ le64 next ++ (key.drop 2 ++ chunk)).drop 2).take 8) =
      next := by
    rw [multi_link]
    exact leToNat_le64 next hn64
  have hkeyeq : ((MULTIPART ++ le64 next ++ (key.drop 2 ++ chunk)).drop 10).take 30 =
      key.drop 2 := by
    rw [multi_drop10]
    exact List.take_left' hkl
  have hbody : ((MULTIPART ++ le64 next ++ (key.drop 2 ++ chunk)).drop (10 + 30)).take
      (t.entry_size - 10 - 30) = chunk := by
    rw [← List.drop_drop, multi_drop10, List.drop_left' hkl]
    have heq : t.entry_size - 10 - 30 = chunk.length := by omega
    rw [heq]
    exact List.take_length chunk
  have hMT : (MULTIPART = TOMBSTONE) = False := eq_false (by decide)
  have hnext0 : (next = 0) = False := eq_false hn0
  simp only [ValueTable.getLoop, hl, hmeq, eq_self_iff_true, if_true, hMT, if_false,
    hkeyeq, hlink, hnext0, hbody, ne_eq, not_true_eq_false, Nat.zero_add]

theorem getLoop_tailChain {es : Nat} {ov : Overlay} :
    ∀ {i : Nat} {rest : Bytes} {n : Nat}, TailChain es ov i rest n →
    ∀ (t : ValueTable), t.entry_size = es → ∀ (key : Bytes) (fuel part : Nat) (acc : Bytes),
    n ≤ fuel → part ≠ 0 →
    t.getLoop ov key fuel i part acc = .ok (some (acc ++ rest)) := by
  intro i rest n H
  induction H with
  | @single i r chunk h0 hl hlen hr1 hr2 =>
    intro t hes key fuel part acc hfuel hp
    obtain ⟨f, rfl⟩ : ∃ f, fuel = f + 1 := ⟨fuel - 1, by omega⟩
    exact getLoop_tail_single t ov key f i part acc chunk r hl hlen hr1 hr2 hp
  | @multi i next chunk rest n h0 hl hcl hn0 hn64 htail ih =>
    intro t hes key fuel part acc hfuel hp
    obtain ⟨f, rfl⟩ : ∃ f, fuel = f + 1 := ⟨fuel - 1, by omega⟩
    rw [getLoop_tail_multi t ov key f i part next acc chunk hl (by rw [hes]; exact hcl)
      hn64 hn0 hp]
    rw [ih t hes key f (part + 1) (acc ++ chunk) (by omega) (by omega)]
    rw [List.append_assoc]

theorem get_headChain {es : Nat} {ov : Overlay} {key : Bytes} {i : Nat} {v : Bytes} {n : Nat}
    (H : HeadChain es ov key i v n) (t : ValueTable) (hes : t.entry_size = es)
    (hkey : key.length = 32) (fuel : Nat) (hfuel : n ≤ fuel) :
    t.get ov key i fuel = .ok (some v) := by
  rcases H with ⟨h0, hl, hr, hr1, hr2⟩ | ⟨h0, hl, hcl, hn0, hn64, htail⟩
  · obtain ⟨f, rfl⟩ : ∃ f, fuel = f + 1 := ⟨fuel - 1, by omega⟩
    unfold ValueTable.get
    have hx := getLoop_head_single t ov key f i [] v _ hl hkey hr hr1 hr2
    rw [hx]
    rw [List.nil_append]
  · obtain ⟨f, rfl⟩ : ∃ f, fuel = f + 1 := ⟨fuel - 1, by omega⟩
    unfold ValueTable.get
    rw [getLoop_head_multi t ov key f i _ [] _ hl hkey (by rw [hes]; exact hcl)
      hn64 hn0]
    rw [getLoop_tailChain htail t hes key f 1 ([] ++ _) (by omega) (by omega)]
    simp

theorem nextFree_WF (t : ValueTable) (ov : Overlay) (fs : List Nat) (hwf : WFState t ov fs) :
    ∃ i t1 fs1, t.nextFree ov = (.ok i, t1) ∧ WFState t1 ov fs1 ∧
      i ∉ fs1 ∧ i ≠ 0 ∧ i ≤ t1.filled ∧ i ≤ t.filled + 1 ∧
      t.filled ≤ t1.filled ∧ t1.filled ≤ t.filled + 1 ∧
      t1.entry_size = t.entry_size ∧ t1.multipart = t.multipart ∧
      t1.file = t.file ∧ t1.capacity = t.capacity ∧
      (∀ x ∈ fs1, x ∈ fs) ∧ (i = t.filled + 1 ∨ i ∈ fs) := by
  obtain ⟨hchain, hnd, hb⟩ := hwf
  generalize hh : t.last_removed = h at hchain
  cases hchain with
  | nil =>
    refine ⟨t.filled + 1, { t with filled := t.filled + 1 }, [],
      nextFree_fresh t ov hh, ⟨?_, List.nodup_nil, by simp⟩, by simp, by omega, by simp,
      by omega, by simp, by simp, rfl, rfl, rfl, rfl, by simp, Or.inl rfl⟩
    show FreeList { t with filled := t.filled + 1 } ov t.last_removed []
    rw [hh]
    exact FreeList.nil
  | cons h0 hr hrest =>
    rename_i j rest
    have hpop : t.nextFree ov = (.ok h, { t with last_removed := j }) := by
      have hp := nextFree_pop t ov j (by rw [hh]; exact h0) (by rw [hh]; exact hr)
      rw [hh] at hp
      exact hp
    have hnd2 := List.nodup_cons.mp hnd
    refine ⟨h, { t with last_removed := j }, rest, hpop,
      ⟨?_, hnd2.2, fun x hx => hb x (List.mem_cons_of_mem h hx)⟩,
      hnd2.1, h0, hb h (List.mem_cons_self h rest), ?_, by simp, by simp, rfl, rfl, rfl, rfl,
      fun x hx => List.mem_cons_of_mem h hx, Or.inr (List.mem_cons_self h rest)⟩
    · show FreeList { t with last_removed := j } ov j rest
      exact FreeList_congr (t := t) rfl rfl hrest
    · have := hb h (List.mem_cons_self h rest)
      omega

theorem owLoop_insert_tail : ∀ (fuel : Nat) (t : ValueTable) (ov : Overlay)
    (key value : Bytes) (cfuel : Nat) (fs : List Nat) (rem offset start index : Nat),
    WFState t ov fs →
    index ∉ fs → index ≠ 0 → index ≤ t.filled →
    64 ≤ t.entry_size → t.entry_size ≤ 65280 →
    offset ≠ 0 → rem = value.length - offset → offset ≤ value.length → rem ≠ 0 →
    t.filled + rem < 2 ^ 64 →
    rem ≤ fuel → start ≠ 0 →
    ∃ t2 ov2 n, ValueTable.owLoop key value cfuel fuel t ov rem offset start index false =
      (.ok start, t2, ov2) ∧
      TailChain t.entry_size ov2 index (value.drop offset) n ∧
      1 ≤ n ∧ n ≤ rem ∧
      t2.entry_size = t.entry_size ∧ t2.multipart = t.multipart ∧
      t2.file = t.file ∧ t2.capacity = t.capacity ∧
      t.filled ≤ t2.filled ∧
      (∀ j, j ≤ t.filled → j ∉ fs → j ≠ index →
        lookupOverlay ov2 j = lookupOverlay ov j) := by
  intro fuel
  induction fuel with
  | zero =>
    intro t ov key value cfuel fs rem offset start index _ _ _ _ _ _ _ _ _ hrem0 _ hfuel _
    omega
  | succ f ih =>
    intro t ov key value cfuel fs rem offset start index hwf hinotfs hi0 hile hes1 hes2
      hoff hremeq hofle hrem0 hbound hfuel hstart
    by_cases hbig : rem > t.entry_size - 2
    · -- multipart entry, allocate the next slot, recurse
      obtain ⟨i, t1, fs1, hnfeq, hwf1, hinot1, hi0', hile1, hile1', hfle, hfle1, hes, hmp,
        hfile, hcap, hsub, halloc⟩ := nextFree_WF t ov fs hwf
      rw [owLoop_false_multi key value cfuel f t ov rem offset start index i t1 hbig hnfeq]
      simp only [if_neg hoff, if_neg hstart, hes]
      have hidxi : index ≠ i := by
        rcases halloc with hfr | hpo
        · omega
        · exact fun he => hinotfs (he ▸ hpo)
      have hwf1' : WFState t1
          ((index, MULTIPART ++ le64 i ++ (value.drop offset).take (t.entry_size - 2 - 8)) :: ov)
          fs1 := by
        refine ⟨FreeList_shadow index _ ?_ hwf1.chain, hwf1.nodup, hwf1.bounded⟩
        intro x hx he
        exact hinotfs (he ▸ hsub x hx)
      obtain ⟨t2, ov2, n, hloop, htail, hn1, hnle, hes2', hmp2, hfile2, hcap2, hfle2, hpres⟩ :=
        ih t1 ((index, MULTIPART ++ le64 i ++ (value.drop offset).take (t.entry_size - 2 - 8)) :: ov)
          key value cfuel fs1 (rem - (t.entry_size - 2 - 8)) (offset + (t.entry_size - 2 - 8))
          start i hwf1' hinot1 hi0' hile1 (by omega) (by omega) (by omega) (by omega)
          (by omega) (by omega) (by omega) (by omega) hstart
      refine ⟨t2, ov2, n + 1, hloop, ?_, by omega, by omega, by rw [hes2', hes],
        by rw [hmp2, hmp], by rw [hfile2, hfile], by rw [hcap2, hcap], by omega, ?_⟩
      · -- build the TailChain for this part
        have hlook : lookupOverlay ov2 index =
            some (MULTIPART ++ le64 i ++ (value.drop offset).take (t.entry_size - 2 - 8)) := by
          rw [hpres index (by omega) (fun hx => hinotfs (hsub index hx)) hidxi]
          rw [lookupOverlay_cons, if_pos rfl]
        have hlen : ((value.drop offset).take (t.entry_size - 2 - 8)).length =
            t.entry_size - 10 := by
          rw [List.length_take, List.length_drop]
          omega
        have hsplit : value.drop offset =
            (value.drop offset).take (t.entry_size - 2 - 8) ++
              value.drop (offset + (t.entry_size - 2 - 8)) := by
          have hdd : value.drop (offset + (t.entry_size - 2 - 8)) =
              (value.drop offset).drop (t.entry_size - 2 - 8) := by
            rw [List.drop_drop]
          rw [hdd, List.take_append_drop]
        rw [hsplit]
        have htail' : TailChain t.entry_size ov2 i
            (value.drop (offset + (t.entry_size - 2 - 8))) n := hes ▸ htail
        exact TailChain.multi hi0 hlook hlen hi0' (by omega) htail'
      · intro j hj1 hj2 hj3
        rw [hpres j (by omega) (fun hx => hj2 (hsub j hx))
          (by rcases halloc with hfr | hpo
              · omega
              · exact fun he => hj2 (he ▸ hpo))]
        rw [lookupOverlay_cons, if_neg (fun he => hj3 he.symm)]
    · -- final single entry
      rw [owLoop_false_single key value cfuel f t ov rem offset start index hbig]
      simp only [if_neg hoff, if_neg hstart]
      have htake : (value.drop offset).take rem = value.drop offset := by
        have hl : (value.drop offset).length = rem := by
          rw [List.length_drop]
          omega
        rw [← hl, List.take_length]
      refine ⟨t, (index, le16 rem ++ (value.drop offset).take rem) :: ov, 1, rfl, ?_,
        le_refl 1, by omega, rfl, rfl, rfl, rfl, le_refl _, ?_⟩
      · rw [← htake]
        refine TailChain.single (r := rem) hi0 ?_ ?_ (by omega) (by omega)
        · rw [lookupOverlay_cons, if_pos rfl, List.take_take, Nat.min_self]
        · rw [htake, List.length_drop]
          omega
      · intro j hj1 hj2 hj3
        rw [lookupOverlay_cons, if_neg (fun he => hj3 he.symm)]

/-- C1 (amended): insert/get round-trip.  For every well-formed state
and 32-byte key, if the value is admissible for the table mode — any
length in multipart mode (entry size 4096, as `open` fixes it), or
length at most `entry_size - 32` with size word `|v| + 30 ≠ 0xfeff` in
single-slot mode (the exception forced by the counterexample below) —
then `write_insert_plan` succeeds with a nonzero head index `i`, its
staged entries are visible through the overlay, and `get(key, i)`
returns exactly the inserted value, byte for byte. -/
theorem insert_get_roundtrip (t : ValueTable) (ov : Overlay) (fs : List Nat)
    (key value : Bytes) (cfuel fuel gfuel : Nat)
    (hwf : WFState t ov fs)
    (hkey : key.length = 32)
    (hes1 : 64 ≤ t.entry_size) (hes2 : t.entry_size ≤ 65534)
    (hmode : (t.multipart = true ∧ t.entry_size = 4096) ∨
      (t.multipart = false ∧ value.length ≤ t.entry_size - 32 ∧ value.length + 30 ≠ 65279))
    (hbound : t.filled + value.length + 30 < 2 ^ 64)
    (hfuel : value.length + 30 ≤ fuel) (hgfuel : value.length + 30 ≤ gfuel) :
    ∃ i t2 ov2, t.writeInsertPlan ov key value fuel cfuel = (.ok i, t2, ov2) ∧ i ≠ 0 ∧
      t2.get ov2 key i gfuel = .ok (some value) := by
  have hassert : t.multipart = true ∨ value.length ≤ t.value_size := by
    rcases hmode with ⟨hm, _⟩ | ⟨_, hv, _⟩
    · exact Or.inl hm
    · right
      unfold ValueTable.value_size KEY_LEN
      omega
  obtain ⟨i, t1, fs1, hnfeq, hwf1, hinot1, hi0', hile1, hile1', hfle, hfle1, hes, hmp,
    hfile, hcap, hsub, halloc⟩ := nextFree_WF t ov fs hwf
  obtain ⟨f, rfl⟩ : ∃ f, fuel = f + 1 := ⟨fuel - 1, by omega⟩
  by_cases hsmall : value.length + 30 ≤ t.entry_size - 2
  · -- single-entry chain
    have h1 := writeInsertPlan_single t ov key value f cfuel i t1 hassert hsmall hnfeq hes
    refine ⟨i, t1, _, h1, hi0', ?_⟩
    have hr2 : value.length + 30 ≠ 65279 := by
      rcases hmode with ⟨_, h4096⟩ | ⟨_, _, hne⟩
      · omega
      · exact hne
    have hhd : HeadChain t1.entry_size
        ((i, le16 (value.length + 30) ++ key.drop 2 ++ value) :: ov) key i value 1 := by
      refine HeadChain.single hi0' ?_ rfl (by omega) hr2
      rw [lookupOverlay_cons, if_pos rfl, List.append_assoc]
    exact get_headChain hhd t1 rfl hkey gfuel (by omega)
  · -- multi-part chain: only in multipart mode
    have hmpt : t.multipart = true ∧ t.entry_size = 4096 := by
      rcases hmode with h | ⟨_, hv, _⟩
      · exact h
      · omega
    unfold ValueTable.writeInsertPlan ValueTable.overwriteChain
    rw [if_pos hassert]
    dsimp only
    rw [hnfeq]
    dsimp only
    -- second allocation for the first continuation slot
    obtain ⟨i2, t2a, fs2, hnfeq2, hwf2, hinot2, hi02, hile2, hile2', hfle2, hfle2', hes2a,
      hmp2, hfile2, hcap2, hsub2, halloc2⟩ := nextFree_WF t1 ov fs1 hwf1
    rw [owLoop_false_multi key value cfuel f t1 ov (value.length + 30) 0 0 i i2 t2a
      (by omega) hnfeq2]
    simp only [eq_self_iff_true, if_true, reduceIte, Nat.zero_add, List.drop_zero, hes2a, hes]
    have h40 : t.entry_size - 2 - 8 - 30 = t.entry_size - 40 := by omega
    have h10 : t.entry_size - 2 - 8 = t.entry_size - 10 := by omega
    rw [h40, h10]
    have hidxi : i ≠ i2 := by
      rcases halloc2 with hfr | hpo
      · omega
      · exact fun he => hinot1 (he ▸ hpo)
    have hwf2' : WFState t2a
        ((i, MULTIPART ++ le64 i2 ++ (key.drop 2 ++ value.take (t.entry_size - 40))) :: ov)
        fs2 := by
      refine ⟨FreeList_shadow i _ ?_ hwf2.chain, hwf2.nodup, hwf2.bounded⟩
      intro x hx he
      exact hinot1 (he ▸ hsub2 x hx)
    obtain ⟨t2, ov2, n, hloop, htail, hn1, hnle, hesf, hmpf, hfilef, hcapf, hflef, hpres⟩ :=
      owLoop_insert_tail f t2a
        ((i, MULTIPART ++ le64 i2 ++ (key.drop 2 ++ value.take (t.entry_size - 40))) :: ov)
        key value cfuel fs2 (value.length + 30 - (t.entry_size - 10)) (t.entry_size - 40)
        i i2 hwf2' hinot2 hi02 hile2 (by omega) (by omega) (by omega) (by omega) (by omega)
        (by omega) (by omega) (by omega) hi0'
    rw [hloop]
    refine ⟨i, t2, ov2, rfl, hi0', ?_⟩
    -- assemble the head chain
    have hlook : lookupOverlay ov2 i =
        some (MULTIPART ++ le64 i2 ++ (key.drop 2 ++ value.take (t.entry_size - 40))) := by
      rw [hpres i (by omega) (fun hx => hinot1 (hsub2 i hx)) hidxi]
      rw [lookupOverlay_cons, if_pos rfl]
    have hlen : 30 + (value.take (t.entry_size - 40)).length = t.entry_size - 10 := by
      rw [List.length_take]
      omega
    have hsplit : value = value.take (t.entry_size - 40) ++ value.drop (t.entry_size - 40) :=
      (List.take_append_drop _ value).symm
    have htail' : TailChain t.entry_size ov2 i2 (value.drop (t.entry_size - 40)) n := by
      have hq : t2a.entry_size = t.entry_size := by rw [hes2a, hes]
      exact hq ▸ htail
    have hhd : HeadChain t.entry_size ov2 key i
        (value.take (t.entry_size - 40) ++ value.drop (t.entry_size - 40)) (n + 1) :=
      HeadChain.multi hi0' hlook hlen hi02 (by omega) htail'
    rw [hsplit]
    refine get_headChain hhd t2 ?_ hkey gfuel (by omega)
    rw [hesf, hes2a, hes]

theorem free_list_lifo_witness :
    ∃ t2 ov2 t3, c3Table.writeRemovePlan c3Overlay 2 3 = (.ok (), t2, ov2) ∧
      t2.filled = c3Table.filled ∧
      t2.nextFreeN ov2 (([2, 3, 4] : List Nat).length + ([] : List Nat).length) =
        (.ok (([2, 3, 4] : List Nat).reverse ++ []), t3) ∧
      t3.last_removed = 0 ∧ t3.filled = c3Table.filled ∧
      t3.nextFree ov2 = (.ok (c3Table.filled + 1), { t3 with filled := c3Table.filled + 1 }) :=
  free_list_lifo c3Table c3Overlay [2, 3, 4] [] 2 3 (by decide)
    (.cons (by decide) (.cons (by decide) (.last (by decide))))
    FreeList.nil (by decide) (by decide) (by decide) (by decide) (by decide)

theorem insert_get_roundtrip_witness :
    ∃ i t2 ov2, mpTable.writeInsertPlan [] s1Key ([1, 2, 3] : Bytes) 33 0 =
      (.ok i, t2, ov2) ∧ i ≠ 0 ∧
      t2.get ov2 s1Key i 33 = .ok (some ([1, 2, 3] : Bytes)) :=
  insert_get_roundtrip mpTable [] [] s1Key [1, 2, 3] 0 33 33
    ⟨FreeList.nil, List.nodup_nil, by simp⟩ (by decide) (by decide) (by decide)
    (Or.inl ⟨rfl, rfl⟩) (by decide) (by decide) (by decide)

/-- C1 counterexample: in single-slot mode with entry size 65534, the
value `c6Value` of length 65249 is admissible by the claim
(65249 ≤ entry_size - 32), `write_insert_plan` succeeds with head index
2 and the staged entry visible in the overlay, yet `get` with the same
key returns `none` instead of the value: the entry's size word 0xfeff
reads as the MULTIPART tag, so `get` misparses the entry and fails the
key comparison. -/
theorem roundtrip_fails_at_feff :
    c6Table.writeInsertPlan [] s1Key c6Value 1 0 =
      (.ok 2, { c6Table with filled := 2 }, [(2, le16 65279 ++ s1Key.drop 2 ++ c6Value)]) ∧
    c6Value.length ≤ c6Table.entry_size - 32 ∧
    ValueTable.get { c6Table with filled := 2 } [(2, le16 65279 ++ s1Key.drop 2 ++ c6Value)]
      s1Key 2 9 = .ok none ∧
    (Except.ok (none : Option Bytes) : Except TErr (Option Bytes)) ≠ .ok (some c6Value) := by
  have hlen : c6Value.length = 65249 := by
    unfold c6Value
    exact List.length_replicate 65249 170
  have h := writeInsertPlan_single c6Table [] s1Key c6Value 0 0 2 { c6Table with filled := 2 }
    (Or.inr (by rw [hlen]; norm_num [c6Table, ValueTable.value_size, KEY_LEN]))
    (by rw [hlen]; norm_num [c6Table])
    (nextFree_fresh c6Table [] rfl) rfl
  refine ⟨by rw [h, hlen], by rw [hlen]; norm_num [c6Table], by decide, by decide⟩
